import Mathlib

/-
  Verification development for the bit-layout library (amaranth/lib/data.py).

  The library describes symbolic layouts over flat bit vectors: a Field is a
  shape plus a bit offset; Layout has four variants (StructLayout, UnionLayout,
  ArrayLayout, FlexibleLayout); a View binds a layout to a bit vector and
  resolves keyed access into slices or word-selects.

  The embedding below translates the Python classes into Lean data and
  functions.  Python exceptions are modelled with Option/Except: a `none` or
  `.error` result corresponds to an exception propagating to the caller.
  Python object identity (`is`) is modelled structurally where the source uses
  it; the places where this matters are commented.
-/

set_option linter.unusedVariables false

namespace AmaranthData

/-- A layout key: Python field keys in this library are strings or integers. -/
inductive LKey : Type where
  | str : String → LKey
  | int : Int → LKey
  deriving DecidableEq, Repr

/-- The result of the shape-casting collaborator `Shape.cast`: a primitive
shape carrying a width and a signedness flag. -/
structure PShape : Type where
  width : Nat
  signed : Bool
  deriving DecidableEq, Repr

mutual
/-- The universe of shape-castable (and shape-like) Python objects that can
appear as a `shape` argument in the library: a plain `int` (casts to an
unsigned shape but carries no `width` attribute), an elaborated `Shape`
(carries `width`, is not `ShapeCastable`), a `Layout`, a generic
`ShapeCastable` wrapper whose `as_shape()` returns the wrapped object, a
pathological `ShapeCastable` whose `as_shape()` returns itself, and an object
that is not shape-castable at all. -/
inductive SC : Type where
  | intShape : Nat → SC
  | shape : Nat → Bool → SC
  | lay : LayoutObj → SC
  | wrapper : SC → SC
  | selfLoop : SC
  | notCastable : SC

/-- The four layout variants.  `structL`, `unionL` and `flexibleL` store their
computed `_fields` dict; `arrayL` stores `elem_shape` and `length` and
generates fields on demand, exactly as the source does. -/
inductive LayoutObj : Type where
  | structL : FList → LayoutObj
  | unionL : FList → LayoutObj
  | arrayL : SC → Nat → LayoutObj
  | flexibleL : Nat → FList → LayoutObj

/-- A `_fields` mapping: an insertion-ordered Python dict from keys to Fields,
modelled as an association list.  (A bespoke list type keeps the whole data
model one mutual inductive family, so structural recursion over it is
available.) -/
inductive FList : Type where
  | nil : FList
  | cons : LKey → FieldD → FList → FList

/-- `Field`: a shape together with a non-negative bit offset. -/
inductive FieldD : Type where
  | mk : SC → Nat → FieldD
end

/-- The `shape` attribute of a Field. -/
def FieldD.shape : FieldD → SC
  | .mk s _ => s

/-- The `offset` attribute of a Field. -/
def FieldD.offset : FieldD → Nat
  | .mk _ o => o

/-- Python attribute access `obj.width`: among our universe only an elaborated
`Shape` carries a `width` attribute.  `none` models the `AttributeError`
raised on every other object (an `int`, a `Layout`, a generic
`ShapeCastable`, ...). -/
def attrWidthN : SC → Option Nat
  | .shape w _ => some w
  | _ => none

mutual
/-- The shape-casting collaborator `Shape.cast` (specified at the boundary in
the spec): an `int` `n` casts to `unsigned(n)`; a `Shape` casts to itself; a
`Layout` casts through `as_shape()` to `unsigned(layout.size)` (so a failure
of `size` propagates); a wrapper unwraps.  `selfLoop` makes `Shape.cast`
diverge in the source; it is modelled as a failure, and no claim depends on
the difference.  `notCastable` raises `TypeError`. -/
def scWidth : SC → Option PShape
  | .intShape n => some ⟨n, false⟩
  | .shape w s => some ⟨w, s⟩
  | .lay l => Option.map (fun n => ⟨n, false⟩) (layoutSize l)
  | .wrapper x => scWidth x
  | .selfLoop => none
  | .notCastable => none

/-- The `size` property of each layout variant, translated clause by clause:
`StructLayout.size = max((f.offset + f.width for f in fields), default=0)`,
`UnionLayout.size = max((f.width for f in fields), default=0)`,
`ArrayLayout.size = self._elem_shape.width * self.length` (note: an attribute
access on the stored `elem_shape`, not `Shape.cast`), and
`FlexibleLayout.size = self._size`. -/
def layoutSize : LayoutObj → Option Nat
  | .structL fs => structMaxEnd fs 0
  | .unionL fs => unionMaxW fs 0
  | .arrayL elem n => Option.map (fun w => w * n) (attrWidthN elem)
  | .flexibleL sz _ => some sz

/-- `max((field.offset + field.width for ...), default=0)` with accumulator;
since all ends are non-negative, folding `max` from 0 agrees with Python's
`max(..., default=0)`. -/
def structMaxEnd : FList → Nat → Option Nat
  | .nil, acc => some acc
  | .cons _ f rest, acc =>
    match fieldWidthO f with
    | none => none
    | some w => structMaxEnd rest (max acc (FieldD.offset f + w))

/-- `max((field.width for ...), default=0)` with accumulator. -/
def unionMaxW : FList → Nat → Option Nat
  | .nil, acc => some acc
  | .cons _ f rest, acc =>
    match fieldWidthO f with
    | none => none
    | some w => unionMaxW rest (max acc w)

/-- The `width` property of a Field: `Shape.cast(self.shape).width`. -/
def fieldWidthO : FieldD → Option Nat
  | .mk sh _ => Option.map PShape.width (scWidth sh)
end

/-- View a `_fields` dict as a plain list of pairs (for stating lemmas). -/
def FList.toList : FList → List (LKey × FieldD)
  | .nil => []
  | .cons k f rest => (k, f) :: rest.toList

/-- Build a `_fields` dict from a list of pairs. -/
def FList.ofList : List (LKey × FieldD) → FList
  | [] => .nil
  | (k, f) :: rest => .cons k f (FList.ofList rest)

/-- Dict key membership. -/
def FList.hasKey (k : LKey) : FList → Bool
  | .nil => false
  | .cons k2 _ rest => k == k2 || rest.hasKey k

/-- Dict lookup `self._fields[key]`: `none` models `KeyError`.  (Python dicts
cannot hold duplicate keys, so taking the first match is exact.) -/
def FList.lookup (k : LKey) : FList → Option FieldD
  | .nil => none
  | .cons k2 f rest => if k = k2 then some f else rest.lookup k

/-- The declared keys of a dict, in insertion order. -/
def FList.keys : FList → List LKey
  | .nil => []
  | .cons k _ rest => k :: rest.keys

/-- A dict never holds two equal keys; layouts built by the source constructors
always satisfy this. -/
def noDupKeysF : FList → Bool
  | .nil => true
  | .cons k _ rest => !rest.hasKey k && noDupKeysF rest

/-- Lookup on plain pair lists (Python dict lookup, first match). -/
def listLookup (k : LKey) : List (LKey × FieldD) → Option FieldD
  | [] => none
  | (k2, f) :: rest => if k = k2 then some f else listLookup k rest

/-- `ArrayLayout.__iter__` unrolled: yields `(index, Field(elem_shape, offset))`
accumulating `offset += self._elem_shape.width` after each element. -/
def arrayIterGo (elem : SC) (w : Nat) : Nat → Nat → Nat → List (LKey × FieldD)
  | 0, _, _ => []
  | rem + 1, idx, off =>
    (LKey.int idx, FieldD.mk elem off) :: arrayIterGo elem w rem (idx + 1) (off + w)

/-- `dict(iter(layout))`: materialise the `(key, field)` pairs of a layout.
For `structL`/`unionL`/`flexibleL` this is the stored dict.  For `arrayL` the
generator reads `self._elem_shape.width` after yielding each element, so with
a width-less element shape and `length ≥ 1` the materialisation raises
`AttributeError` (modelled `none`); with `length = 0` it yields nothing and
succeeds. -/
def pairsOpt : LayoutObj → Option (List (LKey × FieldD))
  | .structL fs => some fs.toList
  | .unionL fs => some fs.toList
  | .flexibleL _ fs => some fs.toList
  | .arrayL _ 0 => some []
  | .arrayL elem (n + 1) => Option.map (fun w => arrayIterGo elem w (n + 1) 0 0) (attrWidthN elem)

/-- The unwrap loop of `Layout.__eq__`: while the other object is
`ShapeCastable` but not a `Layout`, replace it by `as_shape()`, stopping at a
fixed point.  Returns the reached `Layout`, if any. -/
def unwrapL : SC → Option LayoutObj
  | .lay l => some l
  | .wrapper x => unwrapL x
  | _ => none

/-- Length of the `as_shape()` unwrap chain of an object. -/
def scDepth : SC → Nat
  | .wrapper x => scDepth x + 1
  | _ => 0

/-- Failure modes of `Layout.cast`: the final delegated `Shape.cast(obj)`
raises `TypeError` for a non-castable object; otherwise `Layout.cast` itself
raises `TypeError` ("cannot be converted to a data layout").  For `selfLoop`
the source's delegated `Shape.cast` does not terminate; this is modelled as
the `notLayout` failure, and no claim depends on the difference. -/
inductive CastErr : Type where
  | notCastable : CastErr
  | notLayout : CastErr
  deriving DecidableEq, Repr

/-- `Layout.cast(obj)` on our (finite, hence well-founded) object universe:
unwrap through `as_shape()` until a `Layout` is reached, stop on a fixed
point or a non-`ShapeCastable` object and fail. -/
def castTotal : SC → Except CastErr LayoutObj
  | .lay l => .ok l
  | .wrapper x => castTotal x
  | .selfLoop => .error .notLayout
  | .intShape _ => .error .notLayout
  | .shape _ _ => .error .notLayout
  | .notCastable => .error .notCastable

/-- The `Layout.cast` while-loop itself, fuel-indexed: `none` means the loop
is still running after the given number of iterations. -/
def castFuelSC : Nat → SC → Option (Except CastErr LayoutObj)
  | 0, _ => none
  | fuel + 1, obj =>
    match obj with
    | .lay l => some (.ok l)
    | .wrapper x => castFuelSC fuel x
    | .selfLoop => some (.error .notLayout)
    | .intShape _ => some (.error .notLayout)
    | .shape _ _ => some (.error .notLayout)
    | .notCastable => some (.error .notCastable)

/-- An arbitrary object graph for `Layout.cast`, as the loop sees it: objects
are identified by numbers; `next` is `as_shape()`; `same` (identity, the
source's `new_obj is obj` check) is equality of identifiers. -/
structure CastWorld : Type where
  isSC : Nat → Bool
  isLayout : Nat → Bool
  next : Nat → Nat

/-- The `Layout.cast` while-loop over an arbitrary object graph, fuel-indexed:
`some (some o)` = returned the layout `o`, `some none` = raised `TypeError`
(after the delegated `Shape.cast`), `none` = still looping. -/
def castLoopGen (W : CastWorld) : Nat → Nat → Option (Option Nat)
  | 0, _ => none
  | fuel + 1, o =>
    if W.isSC o then
      if W.isLayout o then some (some o)
      else if W.next o = o then some none
      else castLoopGen W fuel (W.next o)
    else some none

/-- A pathological unwrap chain: every object is `ShapeCastable`, none is a
`Layout`, and `as_shape()` returns a fresh object every time (so the identity
check `new_obj is obj` never fires). -/
def badWorld : CastWorld :=
  ⟨fun _ => true, fun _ => false, Nat.succ⟩

/-- Exception kinds raised by `__getitem__` on layouts and views:
`keyError` = `KeyError` (the spec's NotFound), `typeError` = `TypeError`
(the spec's InvalidArgument), `attrError` = `AttributeError` (the width
attribute access failing on the stored element shape). -/
inductive GetErr : Type where
  | keyError : GetErr
  | typeError : GetErr
  | attrError : GetErr
  deriving DecidableEq, Repr

/-- Per-variant `__getitem__` (the spec's `layout.get(key)`):
`StructLayout`/`UnionLayout` do a plain dict lookup (`KeyError` when absent,
whatever the key's type); `FlexibleLayout` accepts int and str keys and does a
dict lookup; `ArrayLayout` requires an int key (`TypeError` otherwise), raises
`KeyError` outside `range(-length, length)`, adds `length` to a negative key,
and builds `Field(elem_shape, key * self._elem_shape.width)` — the width
attribute access can itself raise. -/
def layoutGetItem : LayoutObj → LKey → Except GetErr FieldD
  | .structL fs, k =>
    match fs.lookup k with
    | some f => .ok f
    | none => .error .keyError
  | .unionL fs, k =>
    match fs.lookup k with
    | some f => .ok f
    | none => .error .keyError
  | .flexibleL _ fs, k =>
    match fs.lookup k with
    | some f => .ok f
    | none => .error .keyError
  | .arrayL elem n, .int k =>
    if -(n : Int) ≤ k ∧ k < n then
      match attrWidthN elem with
      | some w => .ok (FieldD.mk elem ((if k < 0 then k + n else k).toNat * w))
      | none => .error .attrError
    else .error .keyError
  | .arrayL _ _, .str _ => .error .typeError

/-- A key as passed to `View.__getitem__`: a compile-time int or str, or a
runtime value (`Value` / `ValueCastable`), identified by a number. -/
inductive VKey : Type where
  | int : Int → VKey
  | str : String → VKey
  | dyn : Nat → VKey
  deriving DecidableEq, Repr

/-- The bit-vector operation `View.__getitem__` performs on the bound value:
a word-select of a given element width at the given key, or a static slice
`[lo, hi)`.  The bit-vector collaborator that executes the operation is
outside the core (spec §6). -/
inductive BitOp : Type where
  | wordSel : VKey → Nat → BitOp
  | slice : Nat → Nat → BitOp
  deriving DecidableEq, Repr

/-- Result of `View.__getitem__`: the operation on the bound bit-vector
together with the resolved shape (which then directs wrapping into a sub-view
or a signed reinterpretation — not needed by any claim), or an exception. -/
inductive ViewRes : Type where
  | ok : BitOp → SC → ViewRes
  | err : GetErr → ViewRes

/-- The non-array branch of `View.__getitem__`: look the key up in the layout
and slice `self.__value[field.offset : field.offset + field.width]`. -/
def viewGetStatic (l : LayoutObj) (k : LKey) : ViewRes :=
  match layoutGetItem l k with
  | .error e => .err e
  | .ok f =>
    match scWidth (FieldD.shape f) with
    | none => .err .typeError
    | some ps => .ok (.slice (FieldD.offset f) (FieldD.offset f + ps.width)) (FieldD.shape f)

/-- `View.__getitem__`, translated branch by branch.  When the layout is an
`ArrayLayout` the source always evaluates `self.__layout.elem_shape.width`
(an attribute access) and calls `word_select(key, width)` — for every key,
compile-time or runtime; `layout.get` is never consulted on this branch.  The
collaborator's `word_select` rejects a key that is neither an index nor
value-castable (a string) with `TypeError` (spec §6).  On every other layout a
runtime-valued key raises `TypeError` and a compile-time key goes through the
layout lookup followed by a static slice. -/
def viewGetitem (l : LayoutObj) (key : VKey) : ViewRes :=
  match l with
  | .arrayL elem _ =>
    match attrWidthN elem with
    | none => .err .attrError
    | some w =>
      match key with
      | .str _ => .err .typeError
      | k => .ok (.wordSel k w) elem
  | _ =>
    match key with
    | .dyn _ => .err .typeError
    | .int k => viewGetStatic l (.int k)
    | .str s => viewGetStatic l (.str s)

/-- The keys enumerated by the "did you mean one of:" suggestion in
`View.__getattr__` (it iterates the layout and prints each key). -/
def declaredKeys : LayoutObj → List LKey
  | .structL fs => fs.keys
  | .unionL fs => fs.keys
  | .flexibleL _ fs => fs.keys
  | .arrayL _ n => (List.range n).map (fun i => LKey.int i)

/-- Result of `View.__getattr__`: the resolved item, the "does not have a
field ...; did you mean one of: ..." `AttributeError` carrying the declared
keys, the reserved-name `AttributeError`, or an uncaught exception
propagating (`TypeError` / `AttributeError` from the width attribute). -/
inductive AttrRes : Type where
  | ok : BitOp → SC → AttrRes
  | notFound : List LKey → AttrRes
  | reserved : AttrRes
  | raisedType : AttrRes
  | raisedAttr : AttrRes

/-- `name.startswith("_")`: the name's first character is an underscore. -/
def startsUnderscore (s : String) : Bool :=
  match s.data with
  | [] => false
  | c :: _ => c = '_'

/-- `View.__getattr__(name)`: try `self[name]`; only `KeyError` is converted
into the "field not found" error with the key listing; a successful item whose
name starts with an underscore is then rejected as reserved. -/
def viewGetattrM (l : LayoutObj) (name : String) : AttrRes :=
  match viewGetitem l (.str name) with
  | .err .keyError => .notFound (declaredKeys l)
  | .err .typeError => .raisedType
  | .err .attrError => .raisedAttr
  | .ok op sh => if startsUnderscore name then .reserved else .ok op sh

/-- `StructLayout.members` setter, one pass: each member's key must be a
string (enforced by the input type), its shape must cast (`TypeError`
otherwise, modelled `none`), and offsets accumulate the cast widths in
declaration order. -/
def structMembersGo : List (String × SC) → Nat → Option (List (LKey × FieldD))
  | [], _ => some []
  | (k, sh) :: rest, off =>
    match scWidth sh with
    | none => none
    | some ps =>
      Option.map (fun tail => (LKey.str k, FieldD.mk sh off) :: tail)
        (structMembersGo rest (off + ps.width))

/-- The `_fields` dict computed by `StructLayout.__init__` from an ordered
member mapping. -/
def structMembersSet (ms : List (String × SC)) : Option (List (LKey × FieldD)) :=
  structMembersGo ms 0

/-- The `value` argument of `View.__init__`: either a value-castable object of
a given cast bit width, or an object on which `Value.cast` raises. -/
inductive VInput : Type where
  | castable : Nat → VInput
  | notCast : VInput
  deriving DecidableEq, Repr

/-- The bit-vector a View ends up bound to: the supplied one (of its cast
width), or a freshly allocated `Signal` of the layout's size. -/
inductive BoundVal : Type where
  | given : Nat → BoundVal
  | fresh : Nat → BoundVal
  deriving DecidableEq, Repr

/-- A constructed View: the original pre-cast layout object, the cast layout,
and the bound bit-vector. -/
structure ViewS : Type where
  origLayout : SC
  layout : LayoutObj
  value : BoundVal

/-- `View.__init__` exceptions: `TypeError` for a non-castable layout,
`TypeError` for a non-value-castable target, `ValueError` for a width
mismatch, and the `AttributeError` escaping from `cast_layout.size`. -/
inductive ViewErr : Type where
  | layoutTypeErr : ViewErr
  | valueTypeErr : ViewErr
  | sizeMismatch : ViewErr
  | sizeAttrErr : ViewErr
  deriving DecidableEq, Repr

/-- `View.__init__(layout, value)` translated clause by clause: cast the
layout (`TypeError` re-raised on failure); if a value is given, cast it
(`TypeError` on failure) and compare its width with `cast_layout.size`
(`ValueError` on mismatch); otherwise allocate `Signal(cast_layout)`, which is
`cast_layout.size` bits wide.  The constructed View records the original
layout object, the cast layout and the bound bit-vector; on any failure no
View exists. -/
def mkView (layoutSC : SC) (value : Option VInput) : Except ViewErr ViewS :=
  match castTotal layoutSC with
  | .error _ => .error .layoutTypeErr
  | .ok cl =>
    match value with
    | some .notCast => .error .valueTypeErr
    | some (.castable w) =>
      match layoutSize cl with
      | none => .error .sizeAttrErr
      | some sz => if w = sz then .ok ⟨layoutSC, cl, .given w⟩ else .error .sizeMismatch
    | none =>
      match layoutSize cl with
      | none => .error .sizeAttrErr
      | some sz => .ok ⟨layoutSC, cl, .fresh sz⟩

/-- The mutable state of a `FlexibleLayout` object: `_size` and `_fields`. -/
structure FlexS : Type where
  size : Nat
  fields : List (LKey × FieldD)

/-- `FlexibleLayout` setter exceptions: `TypeError` for a malformed key (or a
shape failing to cast while its width is computed), and `ValueError` — the
spec's OutOfRange — naming the offending field's key. -/
inductive FlexErr : Type where
  | typeErr : FlexErr
  | outOfRange : LKey → FlexErr
  deriving DecidableEq, Repr

/-- A flexible-layout field key must be a string or a non-negative integer. -/
def keyOk : LKey → Bool
  | .str _ => true
  | .int n => decide (0 ≤ n)

/-- `field.offset + field.width` — the first bit past the field. -/
def endOf (f : FieldD) : Option Nat :=
  Option.map (fun w => FieldD.offset f + w) (fieldWidthO f)

/-- The loop of the `FlexibleLayout.fields` setter: starting from
`self._fields = {}` it validates and inserts one field at a time, so on an
exception the already-inserted prefix remains as the observable `_fields`. -/
def setFieldsGo (sz : Nat) (acc : List (LKey × FieldD)) :
    List (LKey × FieldD) → Option FlexErr × List (LKey × FieldD)
  | [] => (none, acc)
  | (k, f) :: rest =>
    if keyOk k then
      match endOf f with
      | none => (some .typeErr, acc)
      | some e =>
        if e > sz then (some (.outOfRange k), acc)
        else setFieldsGo sz (acc ++ [(k, f)]) rest
    else (some .typeErr, acc)

/-- The `fields` setter: validates every field against the current size.
Returns the exception (if any) together with the observable state after the
call. -/
def setFields (st : FlexS) (fs : List (LKey × FieldD)) : Option FlexErr × FlexS :=
  ((setFieldsGo st.size [] fs).1, ⟨st.size, (setFieldsGo st.size [] fs).2⟩)

/-- `max(self._fields.items(), key=lambda pair: offset + width)`: the end bit
and key of the furthest-extending field; Python's `max` evaluates the key
function on every element (so a raising width on any element propagates,
modelled `none`) and keeps the first maximal element on ties. -/
def endmostGo : List (LKey × FieldD) → Option (LKey × Nat)
  | [] => none
  | [(k, f)] => Option.map (fun e => (k, e)) (endOf f)
  | (k, f) :: q :: rest =>
    match endOf f with
    | none => none
    | some e =>
      match endmostGo (q :: rest) with
      | none => none
      | some (k2, e2) => if e2 > e then some (k2, e2) else some (k, e)

/-- The `size` setter: when fields exist, the new size must cover the
furthest-extending field, else `ValueError` naming it and `_size` is left
unchanged. -/
def setSize (st : FlexS) (n : Nat) : Option FlexErr × FlexS :=
  match st.fields with
  | [] => (none, ⟨n, st.fields⟩)
  | _ :: _ =>
    match endmostGo st.fields with
    | none => (some .typeErr, st)
    | some (k, e) => if e > n then (some (.outOfRange k), st) else (none, ⟨n, st.fields⟩)

/-- `FlexibleLayout.__init__(size, fields)`: the size setter runs first with
no fields present (no check fires), then the fields setter validates against
that size. -/
def mkFlexible (sz : Nat) (fs : List (LKey × FieldD)) : Option FlexErr × FlexS :=
  setFields ⟨sz, []⟩ fs

/-- The observable `FlexibleLayout` states: those produced by the constructor
and closed under the two property setters (which are the only mutators). -/
inductive FlexReachable : FlexS → Prop where
  | init : ∀ sz fs, FlexReachable (mkFlexible sz fs).2
  | stepSize : ∀ st n, FlexReachable st → FlexReachable (setSize st n).2
  | stepFields : ∀ st fs, FlexReachable st → FlexReachable (setFields st fs).2

/-- The layout invariant: every stored field has a computable width and ends
at or before `size`. -/
def FlexInv (st : FlexS) : Prop :=
  ∀ p ∈ st.fields, ∃ w, fieldWidthO p.2 = some w ∧ p.2.offset + w ≤ st.size

/-- A value stored in a Python dict cell: a Field (entries of `_fields`) or a
shape (entries of the dicts returned by the `members` accessors). -/
inductive DVal : Type where
  | fd : FieldD → DVal
  | sh : SC → DVal

/-- A fragment of the Python heap: dict objects identified by their index;
allocation appends a fresh dict. -/
structure PyStore : Type where
  cells : List (List (LKey × DVal))

/-- Dereference a dict. -/
def PyStore.read (σ : PyStore) (i : Nat) : Option (List (LKey × DVal)) :=
  σ.cells[i]?

/-- Mutate the dict object `i` in place. -/
def PyStore.write (σ : PyStore) (i : Nat) (d : List (LKey × DVal)) : PyStore :=
  ⟨σ.cells.set i d⟩

/-- Allocate a fresh dict, returning its identity. -/
def PyStore.alloc (σ : PyStore) (d : List (LKey × DVal)) : Nat × PyStore :=
  (σ.cells.length, ⟨σ.cells ++ [d]⟩)

/-- The accessor pattern shared by `FlexibleLayout.fields` (which returns
`{**self._fields}`, i.e. `t = id`) and `StructLayout.members` /
`UnionLayout.members` (which return `{key: field.shape for key, field in
self._fields.items()}`, i.e. `t` maps each entry to its shape): read the
layout's own `_fields` dict and allocate a fresh dict with the transformed
entries.  The layout keeps referring to cell `ref`; the caller gets the new
cell. -/
def copyAccessor (σ : PyStore) (ref : Nat) (t : List (LKey × DVal) → List (LKey × DVal)) :
    Option (Nat × PyStore) :=
  Option.map (fun d => σ.alloc (t d)) (σ.read ref)

/-- The entry transformation of the `members` accessors. -/
def memberEntry : LKey × DVal → LKey × DVal
  | (k, .fd f) => (k, .sh (FieldD.shape f))
  | (k, .sh s) => (k, .sh s)

mutual
/-- Structural size of a shape object, ignoring numeric payloads (used only to
bound the recursion depth of the equality functions below). -/
def scMeasure : SC → Nat
  | .intShape _ => 1
  | .shape _ _ => 1
  | .lay l => 1 + layMeasure l
  | .wrapper x => 1 + scMeasure x
  | .selfLoop => 1
  | .notCastable => 1

/-- Structural size of a layout, dominating the measure of its materialised
`(key, field)` pairs (an array of length `n` materialises `n` fields sharing
the element shape). -/
def layMeasure : LayoutObj → Nat
  | .structL fs => 1 + flistMeasure fs
  | .unionL fs => 1 + flistMeasure fs
  | .flexibleL _ fs => 1 + flistMeasure fs
  | .arrayL elem n => 1 + scMeasure elem + n * (1 + scMeasure elem)

/-- Structural size of a `_fields` dict. -/
def flistMeasure : FList → Nat
  | .nil => 0
  | .cons _ (.mk sh _) rest => 1 + scMeasure sh + flistMeasure rest
end

/-- Structural size of a materialised pair list. -/
def plistMeasure : List (LKey × FieldD) → Nat
  | [] => 0
  | (_, f) :: rest => 1 + scMeasure (FieldD.shape f) + plistMeasure rest

mutual
/-- Python `a == b` on shape-like objects, fuel-indexed (`none` at fuel 0;
fuel above the measures never runs out — proved below).  An `int` compares by
value; a `Shape` compares by width and signedness (`Shape.__eq__` checks
`isinstance`, so cross-type comparisons are `False`); when either side is a
`Layout`, `Layout.__eq__` runs (directly or reflected) and unwraps the other
side; two distinct generic objects fall back to identity, i.e. `False` (two
structurally equal wrappers are still distinct objects; the same-object case
is not representable here and no claim needs it). -/
def scEqF : Nat → SC → SC → Option Bool
  | 0, _, _ => none
  | fuel + 1, a, b =>
    match a, b with
    | .lay l, o => layoutEqSCF fuel l o
    | o, .lay l => layoutEqSCF fuel l o
    | .intShape m, .intShape n => some (decide (m = n))
    | .shape w1 s1, .shape w2 s2 => some (decide (w1 = w2) && decide (s1 = s2))
    | _, _ => some false

/-- `Layout.__eq__(self, other)` for an arbitrary `other`: unwrap `other`
through `as_shape()` down to a `Layout` (else the comparison is `False`). -/
def layoutEqSCF : Nat → LayoutObj → SC → Option Bool
  | 0, _, _ => none
  | fuel + 1, l, o =>
    match unwrapL o with
    | some l2 => layoutEqF fuel l l2
    | none => some false

/-- `Layout.__eq__` between two layouts:
`self.size == other.size and dict(iter(self)) == dict(iter(other))` — the
size comparison short-circuits, then both dicts are materialised (an
exception from either propagates), then Python dict equality compares
lengths first and then each entry of the first dict against the second. -/
def layoutEqF : Nat → LayoutObj → LayoutObj → Option Bool
  | 0, _, _ => none
  | fuel + 1, l1, l2 =>
    match layoutSize l1 with
    | none => none
    | some s1 =>
      match layoutSize l2 with
      | none => none
      | some s2 =>
        if s1 = s2 then
          match pairsOpt l1 with
          | none => none
          | some ps1 =>
            match pairsOpt l2 with
            | none => none
            | some ps2 =>
              if ps1.length = ps2.length then dictEqF fuel ps1 ps2 else some false
        else some false

/-- Python dict equality after the length check: iterate the first dict in
insertion order; a key missing from the second dict gives `False`; otherwise
the two Fields are compared with `==` (whose exception propagates). -/
def dictEqF : Nat → List (LKey × FieldD) → List (LKey × FieldD) → Option Bool
  | 0, _, _ => none
  | fuel + 1, xs, ys =>
    match xs with
    | [] => some true
    | (k, f) :: rest =>
      match listLookup k ys with
      | none => some false
      | some g =>
        match fieldEqF fuel f g with
        | none => none
        | some false => some false
        | some true => dictEqF fuel rest ys

/-- `Field.__eq__`: the shapes are compared with `==` first (an exception
propagates), then the offsets. -/
def fieldEqF : Nat → FieldD → FieldD → Option Bool
  | 0, _, _ => none
  | fuel + 1, f, g =>
    match scEqF fuel (FieldD.shape f) (FieldD.shape g) with
    | none => none
    | some b => some (b && decide (FieldD.offset f = FieldD.offset g))
end

/-- Python `==` on shape-like objects: fuel one above the measure always
suffices (proved below), so this is the loop-free semantics. -/
def scEqO (a b : SC) : Option Bool :=
  scEqF (scMeasure a + scMeasure b + 1) a b

/-- `Layout.__eq__` between two layouts, with sufficient fuel. -/
def layoutEqO (l1 l2 : LayoutObj) : Option Bool :=
  layoutEqF (layMeasure l1 + layMeasure l2 + 1) l1 l2

/-- Python dict equality on materialised pair lists, with sufficient fuel. -/
def dictEqO (xs ys : List (LKey × FieldD)) : Option Bool :=
  dictEqF (plistMeasure xs + plistMeasure ys + 1) xs ys

/-- `Field.__eq__`, with sufficient fuel. -/
def fieldEqO (f g : FieldD) : Option Bool :=
  fieldEqF (scMeasure (FieldD.shape f) + scMeasure (FieldD.shape g) + 2) f g

mutual
/-- Well-formed shape objects: every shape reachable in field positions is
castable (so no size/width computation raises) and every reachable dict has
no duplicate keys.  Layouts constructed through the source's validating
constructors satisfy this, except for the array-element width defect recorded
separately. -/
def wfSC : SC → Bool
  | .intShape _ => true
  | .shape _ _ => true
  | .lay l => wfL l
  | .wrapper x => wfSC x
  | .selfLoop => false
  | .notCastable => false

/-- Well-formed layouts; an array layout needs its stored element shape to
carry the `width` attribute (only an elaborated `Shape` does). -/
def wfL : LayoutObj → Bool
  | .structL fs => noDupKeysF fs && wfFl fs
  | .unionL fs => noDupKeysF fs && wfFl fs
  | .flexibleL _ fs => noDupKeysF fs && wfFl fs
  | .arrayL elem _ => (attrWidthN elem).isSome && wfSC elem

/-- Well-formed field dicts: every stored field shape is well-formed. -/
def wfFl : FList → Bool
  | .nil => true
  | .cons _ (.mk sh _) rest => wfSC sh && wfFl rest
end

/-- The spec's notion of layout equality content: the `(key, field)` pair
sets coincide (same keys, and the fields compare equal under the library's
own `Field.__eq__`), irrespective of order. -/
def PairSetEq (ps1 ps2 : List (LKey × FieldD)) : Prop :=
  (∀ p ∈ ps1, ∃ q ∈ ps2, p.1 = q.1 ∧ fieldEqO p.2 q.2 = some true) ∧
  (∀ q ∈ ps2, ∃ p ∈ ps1, q.1 = p.1 ∧ fieldEqO q.2 p.2 = some true)

/-- Discriminator: is this object a `Layout`? -/
def isLay : SC → Bool
  | .lay _ => true
  | _ => false

/-- `Layout.__eq__(self, other)` for an arbitrary `other`, at the canonical
(fuel-free) level. -/
def layoutEqSCO (l : LayoutObj) (o : SC) : Option Bool :=
  match unwrapL o with
  | some l2 => layoutEqO l l2
  | none => some false

/-- Sum of the cast widths of a prefix of struct members (the spec's
"sum of the cast widths of all preceding members"). -/
def prefixWidthO : List (String × SC) → Option Nat
  | [] => some 0
  | (_, sh) :: rest =>
    match scWidth sh with
    | none => none
    | some ps => Option.map (fun s => ps.width + s) (prefixWidthO rest)

/-- The spec's struct size: the end offset of the last field, or 0 with no
fields. -/
def specStructSizeO (fs : List (LKey × FieldD)) : Option Nat :=
  match fs.getLast? with
  | none => some 0
  | some p => endOf p.2

/-- Discriminator: is this layout an `ArrayLayout`? -/
def isArrayL : LayoutObj → Bool
  | .arrayL _ _ => true
  | _ => false

/-- Lookup in a heap dict cell. -/
def dvListLookup (k : LKey) : List (LKey × DVal) → Option DVal
  | [] => none
  | (k2, v) :: rest => if k = k2 then some v else dvListLookup k rest

/-- Iterating a layout's `_fields` dict on the heap. -/
def dictItemsAt (σ : PyStore) (i : Nat) : Option (List (LKey × DVal)) :=
  σ.read i

/-- Keyed lookup into a layout's `_fields` dict on the heap. -/
def dictLookupAt (σ : PyStore) (i : Nat) (k : LKey) : Option DVal :=
  (σ.read i).bind (fun d => dvListLookup k d)

/-- The end bit of a Field entry of a heap dict. -/
def dvFieldEnd : DVal → Option Nat
  | .fd f => endOf f
  | .sh _ => none

/-- `StructLayout.size` computed over a heap dict cell. -/
def structSizeEntries : List (LKey × DVal) → Nat → Option Nat
  | [], acc => some acc
  | (_, v) :: rest, acc => (dvFieldEnd v).bind (fun e => structSizeEntries rest (max acc e))

/-- A layout's size as read through the heap. -/
def structSizeAt (σ : PyStore) (i : Nat) : Option Nat :=
  (σ.read i).bind (fun d => structSizeEntries d 0)

/-- The `_fields` of `StructLayout({"a": 1, "b": 2})`: a at offset 0 (1 bit),
b at offset 1 (2 bits). -/
def exFieldsAB : List (LKey × FieldD) :=
  [(.str ("a"), .mk (.intShape 1) 0), (.str ("b"), .mk (.intShape 2) 1)]

/-- `StructLayout({"a": 1, "b": 2})`. -/
def exStructAB : LayoutObj := .structL (FList.ofList exFieldsAB)

/-- The `_fields` of `StructLayout({"b": 2, "a": 1})`: b at offset 0, a at
offset 2. -/
def exFieldsBA : List (LKey × FieldD) :=
  [(.str ("b"), .mk (.intShape 2) 0), (.str ("a"), .mk (.intShape 1) 2)]

/-- `StructLayout({"b": 2, "a": 1})`. -/
def exStructBA : LayoutObj := .structL (FList.ofList exFieldsBA)

/-- `StructLayout({"a": 1, "b": 3})`. -/
def exStructAB3 : LayoutObj :=
  .structL (FList.ofList [(.str ("a"), .mk (.intShape 1) 0), (.str ("b"), .mk (.intShape 3) 1)])

/-- A `FlexibleLayout(3, ...)` holding exactly the fields of `exStructAB` but
declared in the opposite order. -/
def exFlexBA : LayoutObj :=
  .flexibleL 3 (FList.ofList [(.str ("b"), .mk (.intShape 2) 1), (.str ("a"), .mk (.intShape 1) 0)])

/-! ### Induction principles for the mutual data model -/

/-- Structural induction over `FList` alone (derived from the mutual
recursor). -/
theorem FList.inductionOn {P : FList → Prop} (fs : FList)
    (hnil : P .nil)
    (hcons : ∀ k f rest, P rest → P (.cons k f rest)) : P fs :=
  @FList.rec (fun _ => True) (fun _ => True) P (fun _ => True)
    (fun _ => trivial) (fun _ _ => trivial) (fun _ _ => trivial) (fun _ _ => trivial)
    trivial trivial
    (fun _ _ => trivial) (fun _ _ => trivial) (fun _ _ _ => trivial) (fun _ _ _ => trivial)
    hnil (fun k f rest _ h => hcons k f rest h) (fun _ _ _ => trivial) fs

/-- Simultaneous structural induction for the whole mutual family. -/
theorem scFamilyInduct
    {P1 : SC → Prop} {P2 : LayoutObj → Prop} {P3 : FList → Prop} {P4 : FieldD → Prop}
    (h1 : ∀ n, P1 (.intShape n)) (h2 : ∀ w s, P1 (.shape w s))
    (h3 : ∀ l, P2 l → P1 (.lay l)) (h4 : ∀ x, P1 x → P1 (.wrapper x))
    (h5 : P1 .selfLoop) (h6 : P1 .notCastable)
    (h7 : ∀ fs, P3 fs → P2 (.structL fs)) (h8 : ∀ fs, P3 fs → P2 (.unionL fs))
    (h9 : ∀ elem n, P1 elem → P2 (.arrayL elem n))
    (h10 : ∀ sz fs, P3 fs → P2 (.flexibleL sz fs))
    (h11 : P3 .nil) (h12 : ∀ k f rest, P4 f → P3 rest → P3 (.cons k f rest))
    (h13 : ∀ sh off, P1 sh → P4 (.mk sh off)) :
    (∀ sc, P1 sc) ∧ (∀ l, P2 l) ∧ (∀ fs, P3 fs) ∧ (∀ f, P4 f) :=
  ⟨fun sc => @SC.rec P1 P2 P3 P4 h1 h2 h3 h4 h5 h6 h7 h8 h9 h10 h11 h12 h13 sc,
   fun l => @LayoutObj.rec P1 P2 P3 P4 h1 h2 h3 h4 h5 h6 h7 h8 h9 h10 h11 h12 h13 l,
   fun fs => @FList.rec P1 P2 P3 P4 h1 h2 h3 h4 h5 h6 h7 h8 h9 h10 h11 h12 h13 fs,
   fun f => @FieldD.rec P1 P2 P3 P4 h1 h2 h3 h4 h5 h6 h7 h8 h9 h10 h11 h12 h13 f⟩

/-! ### Measure lemmas -/

/-- Every shape object has positive measure. -/
theorem scMeasure_pos (a : SC) : 1 ≤ scMeasure a := by
  cases a <;> simp only [scMeasure] <;> omega

/-- Every layout has positive measure. -/
theorem layMeasure_pos (l : LayoutObj) : 1 ≤ layMeasure l := by
  cases l <;> simp only [layMeasure] <;> omega

/-- The measure of a materialised dict agrees with the dict's own measure. -/
theorem plistMeasure_toList (fs : FList) : plistMeasure fs.toList = flistMeasure fs := by
  refine @FList.inductionOn (fun fs => plistMeasure fs.toList = flistMeasure fs) fs rfl ?_
  intro k f rest ih
  cases f with
  | mk sh off => simp [FList.toList, plistMeasure, flistMeasure, FieldD.shape, ih]

/-- Measure of the fields materialised by array iteration. -/
theorem plistMeasure_arrayIter (elem : SC) (w : Nat) :
    ∀ rem idx off, plistMeasure (arrayIterGo elem w rem idx off) = rem * (1 + scMeasure elem) := by
  intro rem
  induction rem with
  | zero => intro idx off; simp [arrayIterGo, plistMeasure]
  | succ r ih =>
    intro idx off
    simp [arrayIterGo, plistMeasure, FieldD.shape, ih]
    ring

/-- The materialised pairs of a layout have strictly smaller measure than the
layout. -/
theorem pairsOpt_measure {l : LayoutObj} {ps : List (LKey × FieldD)}
    (h : pairsOpt l = some ps) : plistMeasure ps < layMeasure l := by
  cases l with
  | structL fs =>
    simp only [pairsOpt, Option.some.injEq] at h
    subst h
    simp only [layMeasure, plistMeasure_toList]
    omega
  | unionL fs =>
    simp only [pairsOpt, Option.some.injEq] at h
    subst h
    simp only [layMeasure, plistMeasure_toList]
    omega
  | flexibleL sz fs =>
    simp only [pairsOpt, Option.some.injEq] at h
    subst h
    simp only [layMeasure, plistMeasure_toList]
    omega
  | arrayL elem n =>
    cases n with
    | zero =>
      simp only [pairsOpt, Option.some.injEq] at h
      subst h
      simp only [layMeasure, plistMeasure]
      omega
    | succ n0 =>
      simp only [pairsOpt] at h
      cases hw : attrWidthN elem with
      | none => rw [hw] at h; simp at h
      | some w =>
        rw [hw] at h
        simp at h
        subst h
        rw [plistMeasure_arrayIter]
        simp only [layMeasure]
        omega

/-- A successful dict lookup returns a stored field, whose shape measure is
bounded by the dict's. -/
theorem listLookup_measure {k : LKey} {g : FieldD} :
    ∀ {ys : List (LKey × FieldD)}, listLookup k ys = some g →
      1 + scMeasure (FieldD.shape g) ≤ plistMeasure ys := by
  intro ys
  induction ys with
  | nil => intro h; simp [listLookup] at h
  | cons p rest ih =>
    intro h
    obtain ⟨k2, f⟩ := p
    simp only [listLookup] at h
    by_cases hk : k = k2
    · rw [if_pos hk] at h
      simp only [Option.some.injEq] at h
      subst h
      simp only [plistMeasure]
      omega
    · rw [if_neg hk] at h
      have := ih h
      simp only [plistMeasure]
      omega

/-- Any member of a pair list has shape measure bounded by the list's. -/
theorem mem_plistMeasure {p : LKey × FieldD} :
    ∀ {xs : List (LKey × FieldD)}, p ∈ xs →
      1 + scMeasure (FieldD.shape p.2) ≤ plistMeasure xs := by
  intro xs
  induction xs with
  | nil => intro h; simp at h
  | cons q rest ih =>
    intro h
    obtain ⟨k2, f⟩ := q
    rcases List.mem_cons.1 h with h1 | h2
    · subst h1
      simp only [plistMeasure]
      omega
    · have := ih h2
      simp only [plistMeasure]
      omega

/-- Unwrapping reaches a layout of strictly smaller measure. -/
theorem unwrapL_measure (o : SC) : ∀ l, unwrapL o = some l → layMeasure l < scMeasure o := by
  refine ((@scFamilyInduct
    (fun o => ∀ l, unwrapL o = some l → layMeasure l < scMeasure o)
    (fun _ => True) (fun _ => True) (fun _ => True)
    ?_ ?_ ?_ ?_ ?_ ?_ ?_ ?_ ?_ ?_ ?_ ?_ ?_).1 o)
  · intro n l h; simp [unwrapL] at h
  · intro w s l h; simp [unwrapL] at h
  · intro l2 _ l h
    simp only [unwrapL, Option.some.injEq] at h
    subst h
    simp [scMeasure]
  · intro x ih l h
    simp only [unwrapL] at h
    have := ih l h
    simp [scMeasure]
    omega
  · intro l h; simp [unwrapL] at h
  · intro l h; simp [unwrapL] at h
  · intro fs _; trivial
  · intro fs _; trivial
  · intro elem n _; trivial
  · intro sz fs _; trivial
  · trivial
  · intro k f rest _ _; trivial
  · intro sh off _; trivial

/-! ### Fuel elimination for the equality functions -/

/-- Above their measures, the fuel-indexed equality functions do not depend
on the fuel: the source's recursion terminates on this object universe. -/
theorem eqFStable : ∀ (μ : Nat),
    (∀ a b, scMeasure a + scMeasure b ≤ μ → ∀ {N M : Nat}, μ < N → μ < M →
      scEqF N a b = scEqF M a b)
  ∧ (∀ l o, layMeasure l + scMeasure o ≤ μ → ∀ {N M : Nat}, μ < N → μ < M →
      layoutEqSCF N l o = layoutEqSCF M l o)
  ∧ (∀ l1 l2, layMeasure l1 + layMeasure l2 ≤ μ → ∀ {N M : Nat}, μ < N → μ < M →
      layoutEqF N l1 l2 = layoutEqF M l1 l2)
  ∧ (∀ xs ys, plistMeasure xs + plistMeasure ys ≤ μ → ∀ {N M : Nat}, μ < N → μ < M →
      dictEqF N xs ys = dictEqF M xs ys)
  ∧ (∀ f g, scMeasure (FieldD.shape f) + scMeasure (FieldD.shape g) + 1 ≤ μ →
      ∀ {N M : Nat}, μ < N → μ < M → fieldEqF N f g = fieldEqF M f g) := by
  intro μ
  induction μ with
  | zero =>
    refine ⟨?_, ?_, ?_, ?_, ?_⟩
    · intro a b hm
      exact absurd hm (by have := scMeasure_pos a; have := scMeasure_pos b; omega)
    · intro l o hm
      exact absurd hm (by have := layMeasure_pos l; have := scMeasure_pos o; omega)
    · intro l1 l2 hm
      exact absurd hm (by have := layMeasure_pos l1; have := layMeasure_pos l2; omega)
    · intro xs ys hm N M hN hM
      cases xs with
      | nil =>
        cases N with
        | zero => omega
        | succ n =>
          cases M with
          | zero => omega
          | succ m => simp [dictEqF]
      | cons p rest =>
        obtain ⟨k, f⟩ := p
        exact absurd hm (by simp only [plistMeasure]; omega)
    · intro f g hm
      exact absurd hm (by omega)
  | succ μ ih =>
    obtain ⟨ihS, ihLS, ihL, ihD, ihF⟩ := ih
    refine ⟨?_, ?_, ?_, ?_, ?_⟩
    · -- scEqF
      intro a b hm N M hN hM
      cases N with
      | zero => omega
      | succ n =>
        cases M with
        | zero => omega
        | succ m =>
          cases a <;> cases b <;> simp only [scEqF] <;>
            exact ihLS _ _ (by simp only [scMeasure] at hm ⊢; omega) (by omega) (by omega)
    · -- layoutEqSCF
      intro l o hm N M hN hM
      cases N with
      | zero => omega
      | succ n =>
        cases M with
        | zero => omega
        | succ m =>
          simp only [layoutEqSCF]
          split
          · rename_i l2 hu
            have hul := unwrapL_measure o l2 hu
            exact ihL l l2 (by omega) (by omega) (by omega)
          · rfl
    · -- layoutEqF
      intro l1 l2 hm N M hN hM
      cases N with
      | zero => omega
      | succ n =>
        cases M with
        | zero => omega
        | succ m =>
          simp only [layoutEqF]
          split
          · rfl
          · rename_i s1 hs1
            split
            · rfl
            · rename_i s2 hs2
              split
              · split
                · rfl
                · rename_i ps1 hp1
                  split
                  · rfl
                  · rename_i ps2 hp2
                    split
                    · have m1 := pairsOpt_measure hp1
                      have m2 := pairsOpt_measure hp2
                      exact ihD ps1 ps2 (by omega) (by omega) (by omega)
                    · rfl
              · rfl
    · -- dictEqF
      intro xs ys hm N M hN hM
      cases N with
      | zero => omega
      | succ n =>
        cases M with
        | zero => omega
        | succ m =>
          cases xs with
          | nil => simp [dictEqF]
          | cons p rest =>
            obtain ⟨k, f⟩ := p
            simp only [plistMeasure] at hm
            simp only [dictEqF]
            split
            · rfl
            · rename_i g hl
              have hgm := listLookup_measure hl
              have hfe : fieldEqF n f g = fieldEqF m f g :=
                ihF f g (by omega) (by omega) (by omega)
              rw [hfe]
              split
              · rfl
              · rfl
              · exact ihD rest ys (by omega) (by omega) (by omega)
    · -- fieldEqF
      intro f g hm N M hN hM
      cases N with
      | zero => omega
      | succ n =>
        cases M with
        | zero => omega
        | succ m =>
          simp only [fieldEqF]
          have hse : scEqF n (FieldD.shape f) (FieldD.shape g)
              = scEqF m (FieldD.shape f) (FieldD.shape g) :=
            ihS (FieldD.shape f) (FieldD.shape g) (by omega) (by omega) (by omega)
          rw [hse]

/-- Any sufficient fuel computes the canonical shape comparison. -/
theorem scEqF_canon {a b : SC} {N : Nat} (h : scMeasure a + scMeasure b < N) :
    scEqF N a b = scEqO a b :=
  (eqFStable (scMeasure a + scMeasure b)).1 a b le_rfl h (by omega)

/-- Any sufficient fuel computes the canonical layout comparison. -/
theorem layoutEqF_canon {l1 l2 : LayoutObj} {N : Nat}
    (h : layMeasure l1 + layMeasure l2 < N) : layoutEqF N l1 l2 = layoutEqO l1 l2 :=
  (eqFStable (layMeasure l1 + layMeasure l2)).2.2.1 l1 l2 le_rfl h (by omega)

/-- Any sufficient fuel computes the canonical dict comparison. -/
theorem dictEqF_canon {xs ys : List (LKey × FieldD)} {N : Nat}
    (h : plistMeasure xs + plistMeasure ys < N) : dictEqF N xs ys = dictEqO xs ys :=
  (eqFStable (plistMeasure xs + plistMeasure ys)).2.2.2.1 xs ys le_rfl h (by omega)

/-- Any sufficient fuel computes the canonical field comparison. -/
theorem fieldEqF_canon {f g : FieldD} {N : Nat}
    (h : scMeasure (FieldD.shape f) + scMeasure (FieldD.shape g) + 1 < N) :
    fieldEqF N f g = fieldEqO f g :=
  (eqFStable (scMeasure (FieldD.shape f) + scMeasure (FieldD.shape g) + 1)).2.2.2.2
    f g le_rfl h (by omega)

/-- Any sufficient fuel computes the canonical `Layout.__eq__` against an
arbitrary object. -/
theorem layoutEqSCF_canon {l : LayoutObj} {o : SC} {N : Nat}
    (h : layMeasure l + scMeasure o < N) : layoutEqSCF N l o = layoutEqSCO l o := by
  cases N with
  | zero => exact absurd h (by omega)
  | succ n =>
    simp only [layoutEqSCF, layoutEqSCO]
    split
    · rename_i l2 hu
      have hul := unwrapL_measure o l2 hu
      exact layoutEqF_canon (by omega)
    · rfl

/-- `Field.__eq__` unfolded at the canonical level. -/
theorem fieldEqO_unfold (f g : FieldD) :
    fieldEqO f g =
      match scEqO (FieldD.shape f) (FieldD.shape g) with
      | none => none
      | some b => some (b && decide (FieldD.offset f = FieldD.offset g)) := by
  show fieldEqF ((scMeasure (FieldD.shape f) + scMeasure (FieldD.shape g) + 1) + 1) f g = _
  simp only [fieldEqF]
  rw [scEqF_canon (by omega)]

/-- Python `==` with a `Layout` on the left unfolds to `Layout.__eq__`. -/
theorem scEqO_lay (l : LayoutObj) (o : SC) : scEqO (.lay l) o = layoutEqSCO l o := by
  show scEqF (scMeasure (SC.lay l) + scMeasure o + 1) (.lay l) o = _
  simp only [scEqF]
  exact layoutEqSCF_canon (by simp only [scMeasure]; omega)

/-- Python `==` with a `Layout` on the right and a non-`Layout` on the left:
the left operand's `__eq__` is `NotImplemented`, so the comparison reflects
into `Layout.__eq__`. -/
theorem scEqO_lay_right (l : LayoutObj) (o : SC) (ho : isLay o = false) :
    scEqO o (.lay l) = layoutEqSCO l o := by
  cases o with
  | lay l2 => simp [isLay] at ho
  | intShape k =>
    show scEqF (scMeasure (SC.intShape k) + scMeasure (SC.lay l) + 1) _ _ = _
    simp only [scEqF]
    exact layoutEqSCF_canon (by simp only [scMeasure]; omega)
  | shape w s =>
    show scEqF (scMeasure (SC.shape w s) + scMeasure (SC.lay l) + 1) _ _ = _
    simp only [scEqF]
    exact layoutEqSCF_canon (by simp only [scMeasure]; omega)
  | wrapper x =>
    show scEqF (scMeasure (SC.wrapper x) + scMeasure (SC.lay l) + 1) _ _ = _
    simp only [scEqF]
    exact layoutEqSCF_canon (by simp only [scMeasure]; omega)
  | selfLoop =>
    show scEqF (scMeasure SC.selfLoop + scMeasure (SC.lay l) + 1) _ _ = _
    simp only [scEqF]
    exact layoutEqSCF_canon (by simp only [scMeasure]; omega)
  | notCastable =>
    show scEqF (scMeasure SC.notCastable + scMeasure (SC.lay l) + 1) _ _ = _
    simp only [scEqF]
    exact layoutEqSCF_canon (by simp only [scMeasure]; omega)

/-- `Layout.__eq__` between layouts, unfolded at the canonical level. -/
theorem layoutEqO_unfold (l1 l2 : LayoutObj) :
    layoutEqO l1 l2 =
      match layoutSize l1 with
      | none => none
      | some s1 =>
        match layoutSize l2 with
        | none => none
        | some s2 =>
          if s1 = s2 then
            match pairsOpt l1 with
            | none => none
            | some ps1 =>
              match pairsOpt l2 with
              | none => none
              | some ps2 =>
                if ps1.length = ps2.length then dictEqO ps1 ps2 else some false
          else some false := by
  show layoutEqF (layMeasure l1 + layMeasure l2 + 1) l1 l2 = _
  simp only [layoutEqF]
  split
  · rfl
  · split
    · rfl
    · split
      · split
        · rfl
        · rename_i ps1 hp1
          split
          · rfl
          · rename_i ps2 hp2
            split
            · have m1 := pairsOpt_measure hp1
              have m2 := pairsOpt_measure hp2
              exact dictEqF_canon (by omega)
            · rfl
      · rfl

/-- Dict equality: an empty first dict always compares equal (the length
check has already passed). -/
theorem dictEqO_nil (ys : List (LKey × FieldD)) : dictEqO [] ys = some true := rfl

/-- Dict equality unfolded one entry at the canonical level. -/
theorem dictEqO_cons (k : LKey) (f : FieldD) (rest ys : List (LKey × FieldD)) :
    dictEqO ((k, f) :: rest) ys =
      match listLookup k ys with
      | none => some false
      | some g =>
        match fieldEqO f g with
        | none => none
        | some false => some false
        | some true => dictEqO rest ys := by
  show dictEqF (plistMeasure ((k, f) :: rest) + plistMeasure ys + 1) _ _ = _
  simp only [dictEqF]
  split
  · rfl
  · rename_i g hl
    have hgm := listLookup_measure hl
    rw [fieldEqF_canon (by simp only [plistMeasure]; omega)]
    split
    · rfl
    · rfl
    · exact dictEqF_canon (by simp only [plistMeasure]; omega)

/-! ### Dict lookup and pair-set lemmas -/

/-- A successful lookup returns a stored entry. -/
theorem listLookup_mem {k : LKey} {g : FieldD} :
    ∀ {ys : List (LKey × FieldD)}, listLookup k ys = some g → (k, g) ∈ ys := by
  intro ys
  induction ys with
  | nil => intro h; simp [listLookup] at h
  | cons p rest ih =>
    intro h
    obtain ⟨k2, f⟩ := p
    simp only [listLookup] at h
    by_cases hk : k = k2
    · rw [if_pos hk] at h
      simp only [Option.some.injEq] at h
      subst hk
      subst h
      exact List.mem_cons_self _ _
    · rw [if_neg hk] at h
      exact List.mem_cons_of_mem _ (ih h)

/-- With no duplicate keys, a stored entry is what lookup finds. -/
theorem mem_listLookup_nodup :
    ∀ {ys : List (LKey × FieldD)}, (ys.map Prod.fst).Nodup →
      ∀ {k : LKey} {g : FieldD}, (k, g) ∈ ys → listLookup k ys = some g := by
  intro ys
  induction ys with
  | nil => intro _ k g hm; simp at hm
  | cons p rest ih =>
    intro hnd k g hm
    obtain ⟨k2, f⟩ := p
    simp only [List.map_cons, List.nodup_cons] at hnd
    rcases List.mem_cons.1 hm with h1 | h2
    · obtain ⟨hk, hf⟩ := Prod.mk.injEq .. ▸ h1
      subst hk
      subst hf
      simp [listLookup]
    · have hk : k ≠ k2 := by
        intro he
        subst he
        exact hnd.1 (List.mem_map.2 ⟨(k, g), h2, rfl⟩)
      simp only [listLookup, if_neg hk]
      exact ih hnd.2 h2

/-- Soundness of Python dict equality: each entry of the first dict is found
and matched in the second. -/
theorem dictEqO_sound :
    ∀ {xs ys : List (LKey × FieldD)}, dictEqO xs ys = some true →
      ∀ k f, (k, f) ∈ xs → ∃ g, listLookup k ys = some g ∧ fieldEqO f g = some true := by
  intro xs
  induction xs with
  | nil => intro ys h k f hm; simp at hm
  | cons q rest ih =>
    intro ys h k0 f0 hm
    obtain ⟨k, f⟩ := q
    rw [dictEqO_cons] at h
    split at h
    · simp at h
    · rename_i g hl
      split at h
      · simp at h
      · simp at h
      · rename_i hf
        rcases List.mem_cons.1 hm with h1 | h2
        · obtain ⟨hk, hf0⟩ := Prod.mk.injEq .. ▸ h1
          subst hk
          subst hf0
          exact ⟨g, hl, hf⟩
        · exact ih h k0 f0 h2

/-- Completeness of Python dict equality. -/
theorem dictEqO_complete :
    ∀ {xs ys : List (LKey × FieldD)},
      (∀ k f, (k, f) ∈ xs → ∃ g, listLookup k ys = some g ∧ fieldEqO f g = some true) →
      dictEqO xs ys = some true := by
  intro xs
  induction xs with
  | nil => intro ys _; exact dictEqO_nil ys
  | cons q rest ih =>
    intro ys h
    obtain ⟨k, f⟩ := q
    rw [dictEqO_cons]
    obtain ⟨g, hl, hf⟩ := h k f (List.mem_cons_self _ _)
    rw [hl]
    show (match fieldEqO f g with
      | none => none
      | some false => some false
      | some true => dictEqO rest ys) = some true
    rw [hf]
    show dictEqO rest ys = some true
    exact ih (fun k2 f2 hm => h k2 f2 (List.mem_cons_of_mem _ hm))

/-! ### Well-formedness lemmas -/

/-- On well-formed objects no width or size computation raises. -/
theorem wf_defined :
    (∀ sc, wfSC sc = true → (scWidth sc).isSome)
  ∧ (∀ l, wfL l = true → (layoutSize l).isSome)
  ∧ (∀ fs, wfFl fs = true →
      ∀ acc : Nat, (structMaxEnd fs acc).isSome ∧ (unionMaxW fs acc).isSome)
  ∧ (∀ f, wfSC (FieldD.shape f) = true → (fieldWidthO f).isSome) := by
  refine scFamilyInduct ?_ ?_ ?_ ?_ ?_ ?_ ?_ ?_ ?_ ?_ ?_ ?_ ?_
  · intro n _; simp [scWidth]
  · intro w s _; simp [scWidth]
  · intro l ih h
    simp only [wfSC] at h
    obtain ⟨s, hs⟩ := Option.isSome_iff_exists.1 (ih h)
    simp [scWidth, hs]
  · intro x ih h
    simp only [wfSC] at h
    simpa [scWidth] using ih h
  · intro h; simp [wfSC] at h
  · intro h; simp [wfSC] at h
  · intro fs ih h
    simp only [wfL, Bool.and_eq_true] at h
    simpa [layoutSize] using (ih h.2 0).1
  · intro fs ih h
    simp only [wfL, Bool.and_eq_true] at h
    simpa [layoutSize] using (ih h.2 0).2
  · intro elem n ih h
    simp only [wfL, Bool.and_eq_true] at h
    obtain ⟨w, hw⟩ := Option.isSome_iff_exists.1 h.1
    simp [layoutSize, hw]
  · intro sz fs ih h; simp [layoutSize]
  · intro _ acc
    constructor <;> simp [structMaxEnd, unionMaxW]
  · intro k f rest ihf ihrest h acc
    cases f with
    | mk sh off =>
      simp only [wfFl, Bool.and_eq_true] at h
      have hw := ihf (by simpa [FieldD.shape] using h.1)
      obtain ⟨w, hww⟩ := Option.isSome_iff_exists.1 hw
      constructor
      · simp only [structMaxEnd, hww]
        exact (ihrest h.2 _).1
      · simp only [unionMaxW, hww]
        exact (ihrest h.2 _).2
  · intro sh off ih h
    simp only [FieldD.shape] at h
    obtain ⟨ps, hps⟩ := Option.isSome_iff_exists.1 (ih h)
    simp [fieldWidthO, hps]

/-- A well-formed shape has a cast width. -/
theorem wfSC_width {sc : SC} (h : wfSC sc = true) : ∃ ps, scWidth sc = some ps :=
  Option.isSome_iff_exists.1 (wf_defined.1 sc h)

/-- A well-formed layout has a size. -/
theorem wfL_size {l : LayoutObj} (h : wfL l = true) : ∃ s, layoutSize l = some s :=
  Option.isSome_iff_exists.1 (wf_defined.2.1 l h)

/-- `hasKey` agrees with key membership in the materialised dict. -/
theorem hasKey_toList (k : LKey) (fs : FList) :
    FList.hasKey k fs = true ↔ k ∈ fs.toList.map Prod.fst := by
  refine @FList.inductionOn
    (fun fs => FList.hasKey k fs = true ↔ k ∈ fs.toList.map Prod.fst) fs ?_ ?_
  · simp [FList.hasKey, FList.toList]
  · intro k2 f rest ih
    simp [FList.hasKey, FList.toList, Bool.or_eq_true, beq_iff_eq, ih]

/-- A dict with `noDupKeysF` materialises to a list with no duplicate keys. -/
theorem noDupKeysF_toList {fs : FList} (h : noDupKeysF fs = true) :
    (fs.toList.map Prod.fst).Nodup := by
  revert h
  refine @FList.inductionOn
    (fun fs => noDupKeysF fs = true → (fs.toList.map Prod.fst).Nodup) fs ?_ ?_
  · intro _; simp [FList.toList]
  · intro k f rest ih hh
    simp only [noDupKeysF, Bool.and_eq_true] at hh
    have hk : FList.hasKey k rest = false := by
      rcases hh with ⟨h1, _⟩
      cases he : FList.hasKey k rest
      · rfl
      · rw [he] at h1; simp at h1
    simp only [FList.toList, List.map_cons, List.nodup_cons]
    refine ⟨?_, ih hh.2⟩
    intro hmem
    have := (hasKey_toList k rest).2 hmem
    rw [this] at hk
    simp at hk

/-- Every field stored in a well-formed dict has a well-formed shape. -/
theorem wfFl_mem {fs : FList} (h : wfFl fs = true) :
    ∀ p ∈ fs.toList, wfSC (FieldD.shape p.2) = true := by
  revert h
  refine @FList.inductionOn
    (fun fs => wfFl fs = true → ∀ p ∈ fs.toList, wfSC (FieldD.shape p.2) = true) fs ?_ ?_
  · intro _ p hp; simp [FList.toList] at hp
  · intro k f rest ih hh p hp
    cases f with
    | mk sh off =>
      simp only [wfFl, Bool.and_eq_true] at hh
      simp only [FList.toList, List.mem_cons] at hp
      rcases hp with h1 | h2
      · rw [h1]; simpa [FieldD.shape] using hh.1
      · exact ih hh.2 p h2

/-- Characterisation of the fields materialised by array iteration. -/
theorem mem_arrayIterGo {elem : SC} {w : Nat} :
    ∀ {rem idx off : Nat} {p : LKey × FieldD}, p ∈ arrayIterGo elem w rem idx off →
      ∃ i, i < rem ∧ p = (LKey.int (idx + i), FieldD.mk elem (off + i * w)) := by
  intro rem
  induction rem with
  | zero => intro idx off p h; simp [arrayIterGo] at h
  | succ r ih =>
    intro idx off p h
    simp only [arrayIterGo, List.mem_cons] at h
    rcases h with h1 | h2
    · exact ⟨0, by omega, by simpa using h1⟩
    · obtain ⟨i, hi, hp⟩ := ih h2
      refine ⟨i + 1, by omega, ?_⟩
      rw [hp]
      have e1 : ((idx + 1 : Nat) : Int) + (i : Nat) = ((idx : Nat) : Int) + ((i + 1 : Nat) : Int) := by
        push_cast
        ring
      have e2 : off + w + i * w = off + (i + 1) * w := by ring
      rw [e1, e2]

/-- Array iteration yields pairwise distinct integer keys. -/
theorem arrayIterGo_keys_nodup (elem : SC) (w : Nat) :
    ∀ rem idx off, ((arrayIterGo elem w rem idx off).map Prod.fst).Nodup := by
  intro rem
  induction rem with
  | zero => intro idx off; simp [arrayIterGo]
  | succ r ih =>
    intro idx off
    simp only [arrayIterGo, List.map_cons, List.nodup_cons]
    refine ⟨?_, ih _ _⟩
    intro hmem
    obtain ⟨p, hp, hfst⟩ := List.mem_map.1 hmem
    obtain ⟨i, hi, hpe⟩ := mem_arrayIterGo hp
    rw [hpe] at hfst
    simp only [LKey.int.injEq, Nat.cast_inj] at hfst
    omega

/-- A well-formed layout materialises: pairs exist, keys are distinct, and
all materialised shapes are well-formed. -/
theorem wfL_pairs {l : LayoutObj} (h : wfL l = true) :
    ∃ ps, pairsOpt l = some ps ∧ (ps.map Prod.fst).Nodup ∧
      ∀ p ∈ ps, wfSC (FieldD.shape p.2) = true := by
  cases l with
  | structL fs =>
    simp only [wfL, Bool.and_eq_true] at h
    exact ⟨fs.toList, rfl, noDupKeysF_toList h.1, wfFl_mem h.2⟩
  | unionL fs =>
    simp only [wfL, Bool.and_eq_true] at h
    exact ⟨fs.toList, rfl, noDupKeysF_toList h.1, wfFl_mem h.2⟩
  | flexibleL sz fs =>
    simp only [wfL, Bool.and_eq_true] at h
    exact ⟨fs.toList, rfl, noDupKeysF_toList h.1, wfFl_mem h.2⟩
  | arrayL elem n =>
    simp only [wfL, Bool.and_eq_true] at h
    cases n with
    | zero => exact ⟨[], rfl, by simp, by simp⟩
    | succ r =>
      obtain ⟨w, hw⟩ := Option.isSome_iff_exists.1 h.1
      refine ⟨arrayIterGo elem w (r + 1) 0 0, ?_, arrayIterGo_keys_nodup _ _ _ _ _, ?_⟩
      · simp [pairsOpt, hw]
      · intro p hp
        obtain ⟨i, _, hpe⟩ := mem_arrayIterGo hp
        rw [hpe]
        simpa [FieldD.shape] using h.2

/-! ### Symmetry of the equality (on well-formed objects) -/

/-- `==` on integer shapes, computed. -/
theorem scEqO_int_int (m n : Nat) :
    scEqO (.intShape m) (.intShape n) = some (decide (m = n)) := rfl

/-- `==` on elaborated shapes, computed. -/
theorem scEqO_shape_shape (w1 w2 : Nat) (s1 s2 : Bool) :
    scEqO (.shape w1 s1) (.shape w2 s2) = some (decide (w1 = w2) && decide (s1 = s2)) := rfl

/-- Python `==` returning `True` is symmetric on well-formed shape objects
and layouts (δ: the comparison itself is direction-dependent only through the
reflected `Layout.__eq__`, which compares the same data both ways). -/
theorem eqSymmAux : ∀ μ : Nat,
    (∀ a b, scMeasure a + scMeasure b ≤ μ → wfSC a = true → wfSC b = true →
      scEqO a b = some true → scEqO b a = some true)
  ∧ (∀ l1 l2, layMeasure l1 + layMeasure l2 ≤ μ → wfL l1 = true → wfL l2 = true →
      layoutEqO l1 l2 = some true → layoutEqO l2 l1 = some true) := by
  intro μ
  induction μ with
  | zero =>
    constructor
    · intro a b hm
      exact absurd hm (by have := scMeasure_pos a; have := scMeasure_pos b; omega)
    · intro l1 l2 hm
      exact absurd hm (by have := layMeasure_pos l1; have := layMeasure_pos l2; omega)
  | succ μ ih =>
    obtain ⟨ihS, ihL⟩ := ih
    constructor
    · intro a b hm ha hb he
      cases a <;> cases b <;> try exact Bool.noConfusion (Option.some.inj he)
      case intShape.intShape m n =>
        rw [scEqO_int_int] at he
        simp only [Option.some.injEq, decide_eq_true_eq] at he
        subst he
        simp [scEqO_int_int]
      case shape.shape w1 s1 w2 s2 =>
        rw [scEqO_shape_shape] at he
        simp only [Option.some.injEq, Bool.and_eq_true, decide_eq_true_eq] at he
        obtain ⟨hw, hs⟩ := he
        subst hw
        subst hs
        simp [scEqO_shape_shape]
      case lay.lay l1 l2 =>
        rw [scEqO_lay] at he
        simp only [layoutEqSCO, unwrapL] at he
        rw [scEqO_lay]
        simp only [layoutEqSCO, unwrapL]
        simp only [wfSC] at ha hb
        exact ihL l1 l2 (by simp only [scMeasure] at hm; omega) ha hb he
      case lay.wrapper l x =>
        rw [scEqO_lay] at he
        rw [scEqO_lay_right _ _ (by simp [isLay])]
        exact he
      case wrapper.lay x l =>
        rw [scEqO_lay_right _ _ (by simp [isLay])] at he
        rw [scEqO_lay]
        exact he
      case intShape.lay k l =>
        rw [scEqO_lay_right _ _ (by simp [isLay])] at he
        simp only [layoutEqSCO, unwrapL] at he
        exact Bool.noConfusion (Option.some.inj he)
      case shape.lay w s l =>
        rw [scEqO_lay_right _ _ (by simp [isLay])] at he
        simp only [layoutEqSCO, unwrapL] at he
        exact Bool.noConfusion (Option.some.inj he)
      case selfLoop.lay l =>
        rw [scEqO_lay_right _ _ (by simp [isLay])] at he
        simp only [layoutEqSCO, unwrapL] at he
        exact Bool.noConfusion (Option.some.inj he)
      case notCastable.lay l =>
        rw [scEqO_lay_right _ _ (by simp [isLay])] at he
        simp only [layoutEqSCO, unwrapL] at he
        exact Bool.noConfusion (Option.some.inj he)
    · intro l1 l2 hm h1 h2 he
      rw [layoutEqO_unfold] at he
      split at he
      · exact absurd he (by simp)
      · rename_i s1 hs1
        split at he
        · exact absurd he (by simp)
        · rename_i s2 hs2
          split at he
          · rename_i hss
            split at he
            · exact absurd he (by simp)
            · rename_i ps1 hp1
              split at he
              · exact absurd he (by simp)
              · rename_i ps2 hp2
                split at he
                · rename_i hlen
                  obtain ⟨ps1b, hp1b, hnd1, hwf1⟩ := wfL_pairs h1
                  obtain ⟨ps2b, hp2b, hnd2, hwf2⟩ := wfL_pairs h2
                  rw [hp1] at hp1b
                  rw [hp2] at hp2b
                  simp only [Option.some.injEq] at hp1b hp2b
                  subst hp1b
                  subst hp2b
                  have m1 := pairsOpt_measure hp1
                  have m2 := pairsOpt_measure hp2
                  rw [layoutEqO_unfold]
                  simp only [hs2, hs1, hp2, hp1]
                  rw [if_pos hss.symm, if_pos hlen.symm]
                  -- keys of ps1 all appear in ps2
                  have hsub : (ps1.map Prod.fst) ⊆ (ps2.map Prod.fst) := by
                    intro k hk
                    obtain ⟨⟨k0, f⟩, hpmem, hfst⟩ := List.mem_map.1 hk
                    subst hfst
                    obtain ⟨g, hlk, _⟩ := dictEqO_sound he k0 f hpmem
                    exact List.mem_map.2 ⟨(k0, g), listLookup_mem hlk, rfl⟩
                  have hperm : List.Perm (ps1.map Prod.fst) (ps2.map Prod.fst) :=
                    (List.subperm_of_subset hnd1 hsub).perm_of_length_le
                      (by simp [hlen])
                  apply dictEqO_complete
                  intro k g hkg
                  have hk1 : k ∈ ps1.map Prod.fst :=
                    hperm.mem_iff.2 (List.mem_map.2 ⟨(k, g), hkg, rfl⟩)
                  obtain ⟨⟨k0, f⟩, hf1, hk0⟩ := List.mem_map.1 hk1
                  subst hk0
                  obtain ⟨g2, hlk2, hfe⟩ := dictEqO_sound he k0 f hf1
                  have hlg : listLookup k0 ps2 = some g := mem_listLookup_nodup hnd2 hkg
                  rw [hlg] at hlk2
                  simp only [Option.some.injEq] at hlk2
                  subst hlk2
                  have hwff := hwf1 (k0, f) hf1
                  have hwfg := hwf2 (k0, g) hkg
                  have hmf : 1 + scMeasure (FieldD.shape f) ≤ plistMeasure ps1 :=
                    mem_plistMeasure hf1
                  have hmg : 1 + scMeasure (FieldD.shape g) ≤ plistMeasure ps2 :=
                    mem_plistMeasure hkg
                  rw [fieldEqO_unfold] at hfe
                  split at hfe
                  · exact absurd hfe (by simp)
                  · rename_i b hsc
                    simp only [Option.some.injEq, Bool.and_eq_true, decide_eq_true_eq] at hfe
                    obtain ⟨hb, hoff⟩ := hfe
                    subst hb
                    have hsym := ihS (FieldD.shape f) (FieldD.shape g)
                      (by omega) hwff hwfg hsc
                    refine ⟨f, mem_listLookup_nodup hnd1 hf1, ?_⟩
                    rw [fieldEqO_unfold]
                    simp only [hsym]
                    simp [hoff]
                · exact absurd he (by simp)
          · exact absurd he (by simp)

/-! ### Layout equality against pair sets (claim C2) -/

/-- Eliminate a successful layout comparison into its components. -/
theorem layoutEqO_true_elim {l1 l2 : LayoutObj} {ps1 ps2 : List (LKey × FieldD)} {s1 s2 : Nat}
    (hs1 : layoutSize l1 = some s1) (hs2 : layoutSize l2 = some s2)
    (hp1 : pairsOpt l1 = some ps1) (hp2 : pairsOpt l2 = some ps2)
    (he : layoutEqO l1 l2 = some true) :
    s1 = s2 ∧ ps1.length = ps2.length ∧ dictEqO ps1 ps2 = some true := by
  rw [layoutEqO_unfold] at he
  simp only [hs1, hs2, hp1, hp2] at he
  by_cases hss : s1 = s2
  · rw [if_pos hss] at he
    by_cases hlen : ps1.length = ps2.length
    · rw [if_pos hlen] at he
      exact ⟨hss, hlen, he⟩
    · rw [if_neg hlen] at he
      simp at he
  · rw [if_neg hss] at he
    simp at he

/-- Assemble a successful layout comparison from its components. -/
theorem layoutEqO_true_intro {l1 l2 : LayoutObj} {ps1 ps2 : List (LKey × FieldD)} {s1 s2 : Nat}
    (hs1 : layoutSize l1 = some s1) (hs2 : layoutSize l2 = some s2)
    (hp1 : pairsOpt l1 = some ps1) (hp2 : pairsOpt l2 = some ps2)
    (hss : s1 = s2) (hlen : ps1.length = ps2.length)
    (hd : dictEqO ps1 ps2 = some true) : layoutEqO l1 l2 = some true := by
  rw [layoutEqO_unfold]
  simp only [hs1, hs2, hp1, hp2]
  rw [if_pos hss, if_pos hlen]
  exact hd

/-- Claim C2 (amended): for well-formed layouts `L1 == L2` holds exactly when
the sizes agree and the `(key, field)` pair sets agree, irrespective of
declaration order — but note that two `StructLayout`s declared in different
orders have different field offsets and therefore different pair sets (see
the counterexample), so the order-independence manifests across layouts that
genuinely store the same fields, e.g. a `FlexibleLayout` declared in another
order. -/
theorem C2_layout_eq_iff (l1 l2 : LayoutObj) (ps1 ps2 : List (LKey × FieldD))
    (h1 : wfL l1 = true) (h2 : wfL l2 = true)
    (hp1 : pairsOpt l1 = some ps1) (hp2 : pairsOpt l2 = some ps2) :
    layoutEqO l1 l2 = some true ↔
      (layoutSize l1 = layoutSize l2 ∧ PairSetEq ps1 ps2) := by
  obtain ⟨s1, hs1⟩ := wfL_size h1
  obtain ⟨s2, hs2⟩ := wfL_size h2
  obtain ⟨ps1b, hp1b, hnd1, _⟩ := wfL_pairs h1
  obtain ⟨ps2b, hp2b, hnd2, _⟩ := wfL_pairs h2
  rw [hp1] at hp1b
  rw [hp2] at hp2b
  simp only [Option.some.injEq] at hp1b hp2b
  subst hp1b
  subst hp2b
  constructor
  · intro he
    obtain ⟨hss, hlen, hd⟩ := layoutEqO_true_elim hs1 hs2 hp1 hp2 he
    have hsym := (eqSymmAux (layMeasure l1 + layMeasure l2)).2 l1 l2 le_rfl h1 h2 he
    obtain ⟨_, _, hd2⟩ := layoutEqO_true_elim hs2 hs1 hp2 hp1 hsym
    refine ⟨by rw [hs1, hs2, hss], ?_, ?_⟩
    · intro p hp
      obtain ⟨k, f⟩ := p
      obtain ⟨g, hl, hf⟩ := dictEqO_sound hd k f hp
      exact ⟨(k, g), listLookup_mem hl, rfl, hf⟩
    · intro q hq
      obtain ⟨k, g⟩ := q
      obtain ⟨f, hl, hf⟩ := dictEqO_sound hd2 k g hq
      exact ⟨(k, f), listLookup_mem hl, rfl, hf⟩
  · rintro ⟨hsize, hin1, hin2⟩
    have hsub12 : (ps1.map Prod.fst) ⊆ (ps2.map Prod.fst) := by
      intro k hk
      obtain ⟨⟨k0, f⟩, hp, hfst⟩ := List.mem_map.1 hk
      subst hfst
      obtain ⟨q, hq, hkeq, _⟩ := hin1 (k0, f) hp
      exact List.mem_map.2 ⟨q, hq, hkeq.symm⟩
    have hsub21 : (ps2.map Prod.fst) ⊆ (ps1.map Prod.fst) := by
      intro k hk
      obtain ⟨⟨k0, g⟩, hq, hfst⟩ := List.mem_map.1 hk
      subst hfst
      obtain ⟨p, hp, hkeq, _⟩ := hin2 (k0, g) hq
      exact List.mem_map.2 ⟨p, hp, hkeq.symm⟩
    have hlen : ps1.length = ps2.length := by
      have a1 := (List.subperm_of_subset hnd1 hsub12).length_le
      have a2 := (List.subperm_of_subset hnd2 hsub21).length_le
      simp only [List.length_map] at a1 a2
      omega
    apply layoutEqO_true_intro hs1 hs2 hp1 hp2
      (by rw [hs1, hs2] at hsize; exact Option.some.inj hsize) hlen
    apply dictEqO_complete
    intro k f hp
    obtain ⟨q, hq, hkeq, hfe⟩ := hin1 (k, f) hp
    obtain ⟨qk, qf⟩ := q
    simp only at hkeq
    subst hkeq
    exact ⟨qf, mem_listLookup_nodup hnd2 hq, hfe⟩

/-- Claim C2, counterexample to the claim as stated: `StructLayout({a:1,b:2})`
and `StructLayout({b:2,a:1})` — exactly the constructor outputs, as witnessed
by the first two conjuncts — compare UNEQUAL, because the offsets assigned to
`a` and `b` differ between the two declaration orders. -/
theorem C2_counterexample :
    structMembersSet [(("a"), .intShape 1), (("b"), .intShape 2)] = some exFieldsAB
    ∧ structMembersSet [(("b"), .intShape 2), (("a"), .intShape 1)] = some exFieldsBA
    ∧ layoutEqO exStructAB exStructBA = some false :=
  ⟨rfl, rfl, rfl⟩

/-- Claim C2, witness: the amended equivalence applied to concrete layouts —
`StructLayout({a:1,b:2})` equals a `FlexibleLayout` holding the same two
fields declared in the opposite order (order irrelevant), and differs from
`StructLayout({a:1,b:3})`. -/
theorem C2_witness :
    layoutEqO exStructAB exFlexBA = some true
    ∧ layoutEqO exStructAB exStructAB3 = some false :=
  ⟨(C2_layout_eq_iff exStructAB exFlexBA _ _ (by decide) (by decide) rfl rfl).mpr
    (by constructor
        · rfl
        · constructor
          · intro p hp
            fin_cases hp
            · exact ⟨(.str ("a"), .mk (.intShape 1) 0),
                List.mem_cons_of_mem _ (List.mem_cons_self _ _), rfl, by decide⟩
            · exact ⟨(.str ("b"), .mk (.intShape 2) 1),
                List.mem_cons_self _ _, rfl, by decide⟩
          · intro q hq
            fin_cases hq
            · exact ⟨(.str ("b"), .mk (.intShape 2) 1),
                List.mem_cons_of_mem _ (List.mem_cons_self _ _), rfl, by decide⟩
            · exact ⟨(.str ("a"), .mk (.intShape 1) 0),
                List.mem_cons_self _ _, rfl, by decide⟩),
   rfl⟩

/-! ### Claim C1: array-layout views and compile-time keys -/

/-- Claim C1, counterexample: on a View over `ArrayLayout(unsigned(8), 3)`
the compile-time out-of-range key 5 is resolved by a word-select on the bound
bit-vector — `layout.get` is never consulted, so no NotFound arises — and the
in-range compile-time key 1 is likewise word-selected rather than statically
sliced to `[8, 16)` as the claim requires. -/
theorem C1_counterexample :
    viewGetitem (.arrayL (.shape 8 false) 3) (.int 5)
      = .ok (.wordSel (.int 5) 8) (.shape 8 false)
    ∧ viewGetitem (.arrayL (.shape 8 false) 3) (.int 5) ≠ .err .keyError
    ∧ viewGetitem (.arrayL (.shape 8 false) 3) (.int 1)
      ≠ .ok (.slice 8 16) (.shape 8 false) := by
  refine ⟨rfl, ?_, ?_⟩
  · intro h
    exact ViewRes.noConfusion h
  · intro h
    exact BitOp.noConfusion (ViewRes.noConfusion h (fun hop _ => hop))

/-- Claim C1 (amended): on a View whose layout is an `ArrayLayout` (with a
width-bearing element shape), every key — compile-time integer or runtime
value — performs a word-select of width `elem_shape.width` on the bound
bit-vector; `layout.get` is not consulted and NotFound is never raised.  A
string key is rejected by the collaborator's casting with `TypeError`. -/
theorem C1_array_always_word_select (elem : SC) (n : Nat) (w : Nat)
    (hw : attrWidthN elem = some w) :
    (∀ k : Int, viewGetitem (.arrayL elem n) (.int k) = .ok (.wordSel (.int k) w) elem)
    ∧ (∀ v : Nat, viewGetitem (.arrayL elem n) (.dyn v) = .ok (.wordSel (.dyn v) w) elem)
    ∧ (∀ s : String, viewGetitem (.arrayL elem n) (.str s) = .err .typeError) := by
  refine ⟨?_, ?_, ?_⟩ <;> intro x <;> simp [viewGetitem, hw]

/-- Claim C1, witness: the amended statement evaluated on
`ArrayLayout(unsigned(8), 3)` with a compile-time and a runtime key. -/
theorem C1_witness :
    viewGetitem (.arrayL (.shape 8 false) 3) (.int 2)
      = .ok (.wordSel (.int 2) 8) (.shape 8 false)
    ∧ viewGetitem (.arrayL (.shape 8 false) 3) (.dyn 0)
      = .ok (.wordSel (.dyn 0) 8) (.shape 8 false) :=
  ⟨(C1_array_always_word_select (.shape 8 false) 3 8 rfl).1 2,
   (C1_array_always_word_select (.shape 8 false) 3 8 rfl).2.1 0⟩

/-! ### Claim C3: termination of Layout.cast -/

/-- The pathological chain never leaves the loop, whatever the fuel. -/
theorem castLoopGen_bad_none : ∀ fuel k, castLoopGen badWorld fuel k = none := by
  intro fuel
  induction fuel with
  | zero => intro k; rfl
  | succ f ih =>
    intro k
    simp [castLoopGen, badWorld]
    exact ih (k + 1)

/-- Claim C3, counterexample: `Layout.cast` has no depth cap or cycle check,
so on an unwrap chain that yields a fresh non-layout shape-castable object at
every step the loop never terminates: no amount of fuel makes it return. -/
theorem C3_counterexample : ¬ ∃ fuel r, castLoopGen badWorld fuel 0 = some r := by
  rintro ⟨fuel, r, h⟩
  rw [castLoopGen_bad_none] at h
  exact Option.noConfusion h

/-- Claim C3 (amended): on every finite (well-founded) unwrap chain,
`Layout.cast` terminates within `depth + 1` loop iterations and returns the
first `Layout` reached, unwrapping one wrapper per step; when the chain ends
at a fixed point or a non-shape-castable object without reaching a `Layout`,
it fails with `TypeError`. -/
theorem C3_cast_terminates (sc : SC) :
    castFuelSC (scDepth sc + 1) sc = some (castTotal sc)
    ∧ (∀ l, castTotal (.lay l) = .ok l)
    ∧ (∀ x, castTotal (.wrapper x) = castTotal x)
    ∧ castTotal .selfLoop = .error .notLayout
    ∧ castTotal .notCastable = .error .notCastable := by
  refine ⟨?_, fun l => rfl, fun x => rfl, rfl, rfl⟩
  refine (@scFamilyInduct (fun sc => castFuelSC (scDepth sc + 1) sc = some (castTotal sc))
    (fun _ => True) (fun _ => True) (fun _ => True)
    ?_ ?_ ?_ ?_ ?_ ?_ ?_ ?_ ?_ ?_ ?_ ?_ ?_).1 sc
  · intro n; rfl
  · intro w s; rfl
  · intro l _; rfl
  · intro x ih
    simpa [scDepth, castFuelSC, castTotal] using ih
  · rfl
  · rfl
  · intro fs _; trivial
  · intro fs _; trivial
  · intro elem n _; trivial
  · intro sz fs _; trivial
  · trivial
  · intro k f rest _ _; trivial
  · intro sh off _; trivial

/-! ### Claim C4: ArrayLayout size and iteration -/

/-- Claim C4: `ArrayLayout.size` and `__iter__` read `self._elem_shape.width`
— a plain attribute access — instead of `Shape.cast(self._elem_shape).width`.
`ArrayLayout(8, 3)` is accepted by the constructor (8 is shape-castable, to
`unsigned(8)`, as the second conjunct shows), yet its `size` and its
iteration raise `AttributeError` instead of returning 24 and the three
fields; with an elaborated `Shape` element both behave as the claim states. -/
theorem C4_array_size_attribute_error :
    layoutSize (.arrayL (.intShape 8) 3) = none
    ∧ scWidth (.intShape 8) = some ⟨8, false⟩
    ∧ pairsOpt (.arrayL (.intShape 8) 3) = none
    ∧ layoutSize (.arrayL (.shape 8 false) 3) = some 24
    ∧ pairsOpt (.arrayL (.shape 8 false) 3) =
        some [(.int 0, .mk (.shape 8 false) 0), (.int 1, .mk (.shape 8 false) 8),
              (.int 2, .mk (.shape 8 false) 16)] :=
  ⟨rfl, rfl, rfl, rfl, rfl⟩

/-! ### Claim C6: ArrayLayout.get error handling and wraparound -/

/-- Claim C6: `ArrayLayout.__getitem__` rejects non-integer keys with
`TypeError`, rejects integer keys outside `[-length, length)` with
`KeyError`, and normalises a negative in-range key `k` to `k + length`, so
`get(-1)` computes exactly what `get(length - 1)` computes. -/
theorem C6_array_get (elem : SC) (n : Nat) :
    (∀ s : String, layoutGetItem (.arrayL elem n) (.str s) = .error .typeError)
    ∧ (∀ k : Int, ¬(-(n : Int) ≤ k ∧ k < n) →
        layoutGetItem (.arrayL elem n) (.int k) = .error .keyError)
    ∧ (∀ k : Int, -(n : Int) ≤ k → k < 0 →
        layoutGetItem (.arrayL elem n) (.int k)
          = layoutGetItem (.arrayL elem n) (.int (k + n)))
    ∧ layoutGetItem (.arrayL elem n) (.int (-1))
        = layoutGetItem (.arrayL elem n) (.int ((n : Int) - 1)) := by
  have hnorm : ∀ k : Int, -(n : Int) ≤ k → k < 0 →
      layoutGetItem (.arrayL elem n) (.int k)
        = layoutGetItem (.arrayL elem n) (.int (k + n)) := by
    intro k hk1 hk2
    have h1 : -(n : Int) ≤ k ∧ k < n := ⟨hk1, by omega⟩
    have h2 : -(n : Int) ≤ k + n ∧ k + n < n := ⟨by omega, by omega⟩
    simp only [layoutGetItem]
    rw [if_pos h1, if_pos h2, if_pos hk2, if_neg (show ¬(k + (n : Int) < 0) by omega)]
  refine ⟨fun s => rfl, ?_, hnorm, ?_⟩
  · intro k hk
    simp only [layoutGetItem]
    rw [if_neg hk]
  · cases n with
    | zero =>
      simp only [layoutGetItem]
      rw [if_neg (by omega), if_neg (by omega)]
    | succ m =>
      have := hnorm (-1) (by omega) (by omega)
      rw [this]
      have he : (-1 : Int) + ((m + 1 : Nat) : Int) = ((m + 1 : Nat) : Int) - 1 := by omega
      rw [he]

/-- Claim C6, witness: on `ArrayLayout(unsigned(8), 3)` — a string key raises
`TypeError`, key 5 raises `KeyError`, `get(-1)` equals `get(2)`, and that
common result is the field at offset 16. -/
theorem C6_witness :
    layoutGetItem (.arrayL (.shape 8 false) 3) (.str ("x")) = .error .typeError
    ∧ layoutGetItem (.arrayL (.shape 8 false) 3) (.int 5) = .error .keyError
    ∧ layoutGetItem (.arrayL (.shape 8 false) 3) (.int (-1))
        = layoutGetItem (.arrayL (.shape 8 false) 3) (.int 2)
    ∧ layoutGetItem (.arrayL (.shape 8 false) 3) (.int (-1))
        = .ok (.mk (.shape 8 false) 16) :=
  ⟨(C6_array_get (.shape 8 false) 3).1 ("x"),
   (C6_array_get (.shape 8 false) 3).2.1 5 (by decide),
   by
     have := (C6_array_get (.shape 8 false) 3).2.2.1 (-1) (by decide) (by decide)
     simpa using this,
   rfl⟩

/-! ### Claim C5: StructLayout offsets and size -/

/-- The fields computed by the struct members setter: one per member, in
order, with offset = starting offset plus the widths of the preceding
members. -/
theorem structMembersGo_fields :
    ∀ (ms : List (String × SC)) (off : Nat) (fs : List (LKey × FieldD)),
      structMembersGo ms off = some fs →
      fs.length = ms.length ∧
      ∀ i, i < ms.length → ∃ k sh pw, ms[i]? = some (k, sh)
        ∧ prefixWidthO (ms.take i) = some pw
        ∧ fs[i]? = some (.str k, .mk sh (off + pw)) := by
  intro ms
  induction ms with
  | nil =>
    intro off fs h
    simp only [structMembersGo, Option.some.injEq] at h
    subst h
    exact ⟨rfl, by intro i hi; simp at hi⟩
  | cons p rest ih =>
    intro off fs h
    obtain ⟨k, sh⟩ := p
    simp only [structMembersGo] at h
    split at h
    · simp at h
    · rename_i ps hw
      cases ht : structMembersGo rest (off + ps.width) with
      | none => rw [ht] at h; simp at h
      | some tail =>
        rw [ht] at h
        simp at h
        subst h
        obtain ⟨hlen, hidx⟩ := ih _ _ ht
        constructor
        · simp [hlen]
        · intro i hi
          cases i with
          | zero => exact ⟨k, sh, 0, by simp, rfl, by simp⟩
          | succ i =>
            have hi2 : i < rest.length := by simpa using hi
            obtain ⟨k2, sh2, pw, hm, hp, hf⟩ := hidx i hi2
            refine ⟨k2, sh2, ps.width + pw, by simpa using hm, ?_, ?_⟩
            · simp [List.take_succ_cons, prefixWidthO, hw, hp]
            · rw [show off + (ps.width + pw) = (off + ps.width) + pw by omega]
              simpa using hf

/-- The struct size accumulator: starting at or below the current offset, the
maximum of the field ends is exactly the end of the last field (or the
accumulator when there are no fields) — ends are non-decreasing because each
offset is the previous end. -/
theorem structMembersGo_size :
    ∀ (ms : List (String × SC)) (off : Nat) (fs : List (LKey × FieldD)),
      structMembersGo ms off = some fs →
      ∀ acc, acc ≤ off →
        (fs = [] ∧ structMaxEnd (FList.ofList fs) acc = some acc)
        ∨ (∃ p e, fs.getLast? = some p ∧ endOf p.2 = some e
            ∧ structMaxEnd (FList.ofList fs) acc = some e) := by
  intro ms
  induction ms with
  | nil =>
    intro off fs h acc hacc
    simp only [structMembersGo, Option.some.injEq] at h
    subst h
    exact Or.inl ⟨rfl, rfl⟩
  | cons p rest ih =>
    intro off fs h acc hacc
    obtain ⟨k, sh⟩ := p
    simp only [structMembersGo] at h
    split at h
    · simp at h
    · rename_i ps hw
      cases ht : structMembersGo rest (off + ps.width) with
      | none => rw [ht] at h; simp at h
      | some tail =>
        rw [ht] at h
        simp at h
        subst h
        have hfw : fieldWidthO (.mk sh off) = some ps.width := by
          simp [fieldWidthO, hw]
        have hstep : structMaxEnd (FList.ofList ((LKey.str k, FieldD.mk sh off) :: tail)) acc
            = structMaxEnd (FList.ofList tail) (off + ps.width) := by
          simp only [FList.ofList, structMaxEnd, hfw, FieldD.offset]
          rw [Nat.max_eq_right (by omega)]
        rcases ih _ _ ht (off + ps.width) le_rfl with ⟨hnil, hsz⟩ | ⟨q, e, hl, he, hsz⟩
        · subst hnil
          refine Or.inr ⟨(LKey.str k, FieldD.mk sh off), off + ps.width, rfl, ?_, ?_⟩
          · simp [endOf, hfw, FieldD.offset]
          · rw [hstep]
            exact hsz
        · cases tail with
          | nil => simp at hl
          | cons q2 tl =>
            refine Or.inr ⟨q, e, ?_, he, ?_⟩
            · rw [List.getLast?_cons_cons]
              exact hl
            · rw [hstep]
              exact hsz

/-- Claim C5: each member of a `StructLayout` gets the offset equal to the
sum of the cast widths of the preceding members in declaration order, and the
size equals the end offset of the last field (0 with no fields). -/
theorem C5_struct_offsets_and_size (ms : List (String × SC)) (fs : List (LKey × FieldD))
    (h : structMembersSet ms = some fs) :
    fs.length = ms.length
    ∧ (∀ i, i < ms.length → ∃ k sh pw, ms[i]? = some (k, sh)
        ∧ prefixWidthO (ms.take i) = some pw
        ∧ fs[i]? = some (.str k, .mk sh pw))
    ∧ layoutSize (.structL (FList.ofList fs)) = specStructSizeO fs := by
  obtain ⟨hlen, hidx⟩ := structMembersGo_fields ms 0 fs h
  refine ⟨hlen, ?_, ?_⟩
  · intro i hi
    obtain ⟨k, sh, pw, hm, hp, hf⟩ := hidx i hi
    exact ⟨k, sh, pw, hm, hp, by simpa using hf⟩
  · rcases structMembersGo_size ms 0 fs h 0 le_rfl with ⟨hnil, hsz⟩ | ⟨p, e, hl, he, hsz⟩
    · subst hnil
      simpa [layoutSize, specStructSizeO, FList.ofList] using hsz
    · simp only [layoutSize]
      rw [hsz]
      simp only [specStructSizeO, hl]
      exact he.symm

/-- Claim C5, witness: `StructLayout({a: 4, b: 3})` yields offsets a=0, b=4
and size 7. -/
theorem C5_witness :
    structMembersSet [(("a"), .intShape 4), (("b"), .intShape 3)]
      = some [(.str ("a"), .mk (.intShape 4) 0), (.str ("b"), .mk (.intShape 3) 4)]
    ∧ layoutSize (.structL (FList.ofList [(.str ("a"), .mk (.intShape 4) 0),
        (.str ("b"), .mk (.intShape 3) 4)])) = some 7 := by
  refine ⟨rfl, ?_⟩
  have h := (C5_struct_offsets_and_size [(("a"), .intShape 4), (("b"), .intShape 3)]
      [(.str ("a"), .mk (.intShape 4) 0), (.str ("b"), .mk (.intShape 3) 4)] rfl).2.2
  exact h.trans (by rfl)

/-! ### Claim C7: the FlexibleLayout field/size invariant -/

/-- The fields-setter loop only ever stores validated fields. -/
theorem setFieldsGo_inv :
    ∀ (input : List (LKey × FieldD)) (sz : Nat) (acc : List (LKey × FieldD)),
      (∀ p ∈ acc, ∃ w, fieldWidthO p.2 = some w ∧ FieldD.offset p.2 + w ≤ sz) →
      ∀ p ∈ (setFieldsGo sz acc input).2,
        ∃ w, fieldWidthO p.2 = some w ∧ FieldD.offset p.2 + w ≤ sz := by
  intro input
  induction input with
  | nil => intro sz acc hacc p hp; exact hacc p hp
  | cons q rest ih =>
    intro sz acc hacc p hp
    obtain ⟨k, f⟩ := q
    cases hk : keyOk k with
    | false =>
      simp [setFieldsGo, hk] at hp
      exact hacc p hp
    | true =>
      cases he : endOf f with
      | none =>
        simp [setFieldsGo, hk, he] at hp
        exact hacc p hp
      | some e =>
        by_cases hgt : e > sz
        · simp [setFieldsGo, hk, he, hgt] at hp
          exact hacc p hp
        · simp only [setFieldsGo, hk, he, if_true, if_neg hgt] at hp
          refine ih sz (acc ++ [(k, f)]) ?_ p (by simpa using hp)
          intro q hq
          rcases List.mem_append.1 hq with h1 | h2
          · exact hacc q h1
          · simp at h2
            subst h2
            simp only [endOf] at he
            obtain ⟨w, hw, hwe⟩ := Option.map_eq_some'.1 he
            exact ⟨w, hw, by show FieldD.offset f + w ≤ sz; omega⟩

/-- The endmost field dominates every field's end (and all ends compute). -/
theorem endmostGo_max :
    ∀ {fields : List (LKey × FieldD)} {k : LKey} {e : Nat},
      endmostGo fields = some (k, e) →
      ∀ p ∈ fields, ∃ ep, endOf p.2 = some ep ∧ ep ≤ e := by
  intro fields
  induction fields with
  | nil => intro k e h; simp [endmostGo] at h
  | cons q rest ih =>
    intro k e h p hp
    obtain ⟨k1, f⟩ := q
    cases rest with
    | nil =>
      simp only [endmostGo] at h
      obtain ⟨e1, he1, hke⟩ := Option.map_eq_some'.1 h
      simp at hp
      subst hp
      simp only [Prod.mk.injEq] at hke
      exact ⟨e1, he1, by omega⟩
    | cons q2 rest2 =>
      simp only [endmostGo] at h
      split at h
      · exact absurd h (by simp)
      · rename_i e1 he1
        split at h
        · exact absurd h (by simp)
        · rename_i k2 e2 hem2
          rcases List.mem_cons.1 hp with h1 | h2
          · subst h1
            by_cases hgt : e2 > e1
            · rw [if_pos hgt] at h
              simp at h
              exact ⟨e1, he1, by omega⟩
            · rw [if_neg hgt] at h
              simp at h
              exact ⟨e1, he1, by omega⟩
          · obtain ⟨ep, hep, hle⟩ := ih hem2 p h2
            by_cases hgt : e2 > e1
            · rw [if_pos hgt] at h
              simp at h
              exact ⟨ep, hep, by omega⟩
            · rw [if_neg hgt] at h
              simp at h
              exact ⟨ep, hep, by omega⟩

/-- The endmost result names an actual stored field with that end. -/
theorem endmostGo_mem :
    ∀ {fields : List (LKey × FieldD)} {k : LKey} {e : Nat},
      endmostGo fields = some (k, e) → ∃ f, (k, f) ∈ fields ∧ endOf f = some e := by
  intro fields
  induction fields with
  | nil => intro k e h; simp [endmostGo] at h
  | cons q rest ih =>
    intro k e h
    obtain ⟨k1, f⟩ := q
    cases rest with
    | nil =>
      simp only [endmostGo] at h
      obtain ⟨e1, he1, hke⟩ := Option.map_eq_some'.1 h
      simp only [Prod.mk.injEq] at hke
      obtain ⟨hk, hee⟩ := hke
      subst hk
      subst hee
      exact ⟨f, by simp, he1⟩
    | cons q2 rest2 =>
      simp only [endmostGo] at h
      split at h
      · exact absurd h (by simp)
      · rename_i e1 he1
        split at h
        · exact absurd h (by simp)
        · rename_i k2 e2 hem2
          by_cases hgt : e2 > e1
          · rw [if_pos hgt] at h
            simp only [Option.some.injEq, Prod.mk.injEq] at h
            obtain ⟨hk, hee⟩ := h
            subst hk
            subst hee
            obtain ⟨g, hg, hge⟩ := ih hem2
            exact ⟨g, List.mem_cons_of_mem _ hg, hge⟩
          · rw [if_neg hgt] at h
            simp only [Option.some.injEq, Prod.mk.injEq] at h
            obtain ⟨hk, hee⟩ := h
            subst hk
            subst hee
            exact ⟨f, by simp, he1⟩

/-- Claim C7: (1) every observable FlexibleLayout satisfies
`offset + width ≤ size` for all its fields; (2) assigning a field that ends
past the current size fails with the OutOfRange error naming that field's
key; (3) shrinking the size below the furthest-extending field's end fails
with OutOfRange naming that field and leaves the state — in particular the
size — unchanged. -/
theorem C7_flexible_invariant :
    (∀ st, FlexReachable st → FlexInv st)
    ∧ (∀ (st : FlexS) (k : LKey) (f : FieldD) (w : Nat), keyOk k = true →
        fieldWidthO f = some w → st.size < FieldD.offset f + w →
        (setFields st [(k, f)]).1 = some (.outOfRange k))
    ∧ (∀ (st : FlexS) (k : LKey) (e n : Nat), endmostGo st.fields = some (k, e) →
        n < e → setSize st n = (some (.outOfRange k), st)) := by
  refine ⟨?_, ?_, ?_⟩
  · intro st h
    induction h with
    | init sz fs =>
      intro p hp
      exact setFieldsGo_inv fs sz [] (fun q hq => absurd hq (by simp)) p hp
    | stepSize st n hst ih =>
      obtain ⟨sz0, flds⟩ := st
      cases flds with
      | nil =>
        intro p hp
        simp [setSize] at hp
      | cons q rest =>
        cases hem : endmostGo (q :: rest) with
        | none =>
          simpa [setSize, hem] using ih
        | some ke =>
          obtain ⟨k, e⟩ := ke
          by_cases hgt : e > n
          · simpa [setSize, hem, hgt] using ih
          · simp only [setSize, hem, if_neg hgt]
            intro p hp
            simp only at hp
            obtain ⟨ep, hep, hle⟩ := endmostGo_max hem p hp
            simp only [endOf] at hep
            obtain ⟨w, hw, hwe⟩ := Option.map_eq_some'.1 hep
            exact ⟨w, hw, by simp only; omega⟩
    | stepFields st fs hst ih =>
      intro p hp
      exact setFieldsGo_inv fs st.size [] (fun q hq => absurd hq (by simp)) p hp
  · intro st k f w hk hw hlt
    simp [setFields, setFieldsGo, hk, endOf, hw, show FieldD.offset f + w > st.size by omega]
  · intro st k e n hem hlt
    obtain ⟨sz0, flds⟩ := st
    cases flds with
    | nil => simp [endmostGo] at hem
    | cons q rest =>
      simp only at hem
      simp [setSize, hem, show e > n by omega]

/-- Claim C7, witness: the spec's own example — `FlexibleLayout(8, {0:
Field(unsigned(4), 0), "x": Field(unsigned(4), 4)})` constructs and satisfies
the invariant; assigning a field ending at bit 9 fails naming it; setting the
size to 4 fails naming "x" and leaves the state unchanged. -/
theorem C7_witness :
    FlexInv (mkFlexible 8 [(.int 0, .mk (.shape 4 false) 0),
        (.str ("x"), .mk (.shape 4 false) 4)]).2
    ∧ (setFields (mkFlexible 8 [(.int 0, .mk (.shape 4 false) 0),
        (.str ("x"), .mk (.shape 4 false) 4)]).2
        [(.str ("y"), .mk (.shape 4 false) 5)]).1 = some (.outOfRange (.str ("y")))
    ∧ setSize (mkFlexible 8 [(.int 0, .mk (.shape 4 false) 0),
        (.str ("x"), .mk (.shape 4 false) 4)]).2 4
      = (some (.outOfRange (.str ("x"))),
         (mkFlexible 8 [(.int 0, .mk (.shape 4 false) 0),
            (.str ("x"), .mk (.shape 4 false) 4)]).2) :=
  ⟨C7_flexible_invariant.1 _ (FlexReachable.init 8 _),
   C7_flexible_invariant.2.1 _ (.str ("y")) (.mk (.shape 4 false) 5) 4 rfl rfl (by decide),
   C7_flexible_invariant.2.2 _ (.str ("x")) 8 4 rfl (by decide)⟩

/-! ### Claim C8: View construction -/

/-- Claim C8: `View.__init__` with an explicit value fails with `TypeError`
when the value is not castable, fails with `ValueError` when the cast width
differs from `layout.size`, binds the value when the widths agree; without a
value it allocates a fresh bit-vector of exactly `layout.size` bits.  The
`Except` result makes construction atomic: on failure no View state exists. -/
theorem C8_view_init (layoutSC : SC) (cl : LayoutObj) (sz : Nat)
    (hc : castTotal layoutSC = .ok cl) (hs : layoutSize cl = some sz) :
    mkView layoutSC (some .notCast) = .error .valueTypeErr
    ∧ (∀ w, w ≠ sz → mkView layoutSC (some (.castable w)) = .error .sizeMismatch)
    ∧ mkView layoutSC (some (.castable sz)) = .ok ⟨layoutSC, cl, .given sz⟩
    ∧ mkView layoutSC none = .ok ⟨layoutSC, cl, .fresh sz⟩ := by
  refine ⟨?_, ?_, ?_, ?_⟩
  · simp [mkView, hc]
  · intro w hw
    simp [mkView, hc, hs, hw]
  · simp [mkView, hc, hs]
  · simp [mkView, hc, hs]

/-- Claim C8, witness: over `StructLayout({a:1,b:2})` (size 3): omitted value
allocates 3 fresh bits; a 5-bit value is rejected with the width-mismatch
error; a non-castable value is rejected with `TypeError`. -/
theorem C8_witness :
    mkView (.lay exStructAB) none = .ok ⟨.lay exStructAB, exStructAB, .fresh 3⟩
    ∧ mkView (.lay exStructAB) (some (.castable 5)) = .error .sizeMismatch
    ∧ mkView (.lay exStructAB) (some .notCast) = .error .valueTypeErr :=
  ⟨(C8_view_init (.lay exStructAB) exStructAB 3 rfl rfl).2.2.2,
   (C8_view_init (.lay exStructAB) exStructAB 3 rfl rfl).2.1 5 (by decide),
   (C8_view_init (.lay exStructAB) exStructAB 3 rfl rfl).1⟩

/-! ### Claim C9: name-based access on views -/

/-- An undeclared key is not found by dict lookup. -/
theorem FList.lookup_eq_none_of_not_mem {k : LKey} {fs : FList}
    (h : k ∉ FList.keys fs) : FList.lookup k fs = none := by
  revert h
  refine @FList.inductionOn (fun fs => k ∉ FList.keys fs → FList.lookup k fs = none) fs ?_ ?_
  · intro _; rfl
  · intro k2 f rest ih hm
    simp only [FList.keys, List.mem_cons] at hm
    push_neg at hm
    simp only [FList.lookup, if_neg hm.1]
    exact ih hm.2

/-- Claim C9, counterexample: on a View over `ArrayLayout(unsigned(8), 3)`,
name-based access with the undeclared name "foo" raises the `TypeError`
coming from `word_select` on a string key — not the "field not found"
`AttributeError` listing the declared keys that the claim requires for every
View. -/
theorem C9_counterexample :
    viewGetattrM (.arrayL (.shape 8 false) 3) ("foo") = .raisedType
    ∧ viewGetattrM (.arrayL (.shape 8 false) 3) ("foo")
        ≠ .notFound (declaredKeys (.arrayL (.shape 8 false) 3)) := by
  refine ⟨rfl, ?_⟩
  intro h
  exact AttrRes.noConfusion h

/-- Claim C9 (amended): on any View, a name whose item lookup raises
`KeyError` is re-signalled as the "field not found" error listing every
declared key; a successfully resolving name starting with an underscore is
rejected as reserved even though indexing succeeds; other resolving names
are returned.  On every non-array layout, an undeclared name takes exactly
the `KeyError` path (on array layouts it instead raises `TypeError`, see the
counterexample). -/
theorem C9_getattr_resolution (l : LayoutObj) (name : String) :
    (viewGetitem l (.str name) = .err .keyError →
      viewGetattrM l name = .notFound (declaredKeys l))
    ∧ (∀ op sh, viewGetitem l (.str name) = .ok op sh →
        startsUnderscore name = true → viewGetattrM l name = .reserved)
    ∧ (∀ op sh, viewGetitem l (.str name) = .ok op sh →
        startsUnderscore name = false → viewGetattrM l name = .ok op sh)
    ∧ (isArrayL l = false → LKey.str name ∉ declaredKeys l →
        viewGetattrM l name = .notFound (declaredKeys l)) := by
  refine ⟨?_, ?_, ?_, ?_⟩
  · intro h
    simp [viewGetattrM, h]
  · intro op sh h hst
    simp [viewGetattrM, h, hst]
  · intro op sh h hst
    simp [viewGetattrM, h, hst]
  · intro hna hnm
    have hkey : viewGetitem l (.str name) = .err .keyError := by
      cases l with
      | arrayL elem n => simp [isArrayL] at hna
      | structL fs =>
        have := FList.lookup_eq_none_of_not_mem (show LKey.str name ∉ FList.keys fs from hnm)
        simp [viewGetitem, viewGetStatic, layoutGetItem, this]
      | unionL fs =>
        have := FList.lookup_eq_none_of_not_mem (show LKey.str name ∉ FList.keys fs from hnm)
        simp [viewGetitem, viewGetStatic, layoutGetItem, this]
      | flexibleL sz fs =>
        have := FList.lookup_eq_none_of_not_mem (show LKey.str name ∉ FList.keys fs from hnm)
        simp [viewGetitem, viewGetStatic, layoutGetItem, this]
    simp [viewGetattrM, hkey]

/-- Claim C9, witness: on a struct declaring `_x` and `a` — indexing `_x`
succeeds while attribute access on `_x` is rejected as reserved; attribute
access on the undeclared `zzz` reports "field not found" listing `_x` and
`a`; attribute access on `a` succeeds. -/
theorem C9_witness :
    viewGetitem (.structL (.cons (.str ("_x")) (.mk (.intShape 4) 0)
        (.cons (.str ("a")) (.mk (.intShape 3) 4) .nil))) (.str ("_x"))
      = .ok (.slice 0 4) (.intShape 4)
    ∧ viewGetattrM (.structL (.cons (.str ("_x")) (.mk (.intShape 4) 0)
        (.cons (.str ("a")) (.mk (.intShape 3) 4) .nil))) ("_x") = .reserved
    ∧ viewGetattrM (.structL (.cons (.str ("_x")) (.mk (.intShape 4) 0)
        (.cons (.str ("a")) (.mk (.intShape 3) 4) .nil))) ("zzz")
      = .notFound [.str ("_x"), .str ("a")]
    ∧ viewGetattrM (.structL (.cons (.str ("_x")) (.mk (.intShape 4) 0)
        (.cons (.str ("a")) (.mk (.intShape 3) 4) .nil))) ("a")
      = .ok (.slice 4 7) (.intShape 3) :=
  ⟨rfl,
   (C9_getattr_resolution _ ("_x")).2.1 _ _ rfl (by decide),
   (C9_getattr_resolution _ ("zzz")).2.2.2 rfl (by decide),
   (C9_getattr_resolution _ ("a")).2.2.1 _ _ rfl (by decide)⟩

/-! ### Claim C10: the members/fields accessors return fresh dicts -/

/-- Claim C10: the accessor underlying `FlexibleLayout.fields` (`t = id`) and
`StructLayout.members` / `UnionLayout.members` (`t` maps entries to their
shapes) allocates a fresh dict distinct from the layout's own `_fields`
cell, so mutating the returned mapping afterwards leaves the layout's
iteration, key lookup, and size computations unchanged. -/
theorem C10_accessor_returns_fresh_dict (σ : PyStore) (ref : Nat)
    (t : List (LKey × DVal) → List (LKey × DVal)) (href : ref < σ.cells.length) :
    ∃ r σ2, copyAccessor σ ref t = some (r, σ2)
      ∧ r ≠ ref
      ∧ ∀ d, dictItemsAt (σ2.write r d) ref = dictItemsAt σ ref
        ∧ (∀ k, dictLookupAt (σ2.write r d) ref k = dictLookupAt σ ref k)
        ∧ structSizeAt (σ2.write r d) ref = structSizeAt σ ref := by
  have hd0 : σ.read ref = some σ.cells[ref] := by
    simp [PyStore.read, List.getElem?_eq_getElem href]
  refine ⟨σ.cells.length, ⟨σ.cells ++ [t σ.cells[ref]]⟩, ?_, by omega, ?_⟩
  · simp [copyAccessor, hd0, PyStore.alloc]
  · intro d
    have hread : (PyStore.write ⟨σ.cells ++ [t σ.cells[ref]]⟩ σ.cells.length d).read ref
        = σ.read ref := by
      simp only [PyStore.read, PyStore.write]
      rw [List.getElem?_set_ne (by omega)]
      rw [List.getElem?_append]
      rw [if_pos href]
    exact ⟨by simp [dictItemsAt, hread], fun k => by simp [dictLookupAt, hread],
      by simp [structSizeAt, hread]⟩

/-- Claim C10, witness: a one-layout heap — the members accessor returns a
fresh cell; overwriting it leaves the layout's reads unchanged. -/
theorem C10_witness :
    ∃ r σ2, copyAccessor ⟨[[(.str ("a"), .fd (.mk (.intShape 1) 0))]]⟩ 0
        (fun d => d.map memberEntry) = some (r, σ2)
      ∧ r ≠ 0
      ∧ ∀ d, dictItemsAt (σ2.write r d) 0
          = dictItemsAt ⟨[[(.str ("a"), .fd (.mk (.intShape 1) 0))]]⟩ 0
        ∧ (∀ k, dictLookupAt (σ2.write r d) 0 k
            = dictLookupAt ⟨[[(.str ("a"), .fd (.mk (.intShape 1) 0))]]⟩ 0 k)
        ∧ structSizeAt (σ2.write r d) 0
          = structSizeAt ⟨[[(.str ("a"), .fd (.mk (.intShape 1) 0))]]⟩ 0 :=
  C10_accessor_returns_fresh_dict ⟨[[(.str ("a"), .fd (.mk (.intShape 1) 0))]]⟩ 0
    (fun d => d.map memberEntry) (by simp)

end AmaranthData
